import Mathlib

/-
Verification of the ASAP scheduling pass (src/qiskit/transpiler/passes/scheduling/asap.py,
class ASAPSchedule) and the idle-delay removal pass
(src/qiskit/transpiler/passes/utils/remove_delays_on_idle_qubits.py,
class RemoveDelaysOnIdleQubits).

Modelling choices (shallow embedding):
 - A `Bit` is a wire (qubit or clbit), identified by an index plus a flag.
 - Instruction objects ("op"s) live in a heap `List Op`, and DAG nodes refer to
   them by index (`opId`).  This models Python object identity: in the source,
   `new_dag.apply_operation_back(node.op, ...)` stores the very same op object
   that the input DAG's node holds, and the later assignment
   `new_node.op.duration = duration` mutates that shared object.  Mutation of
   an op is modelled as updating the heap entry, which is visible through every
   node (input or output) that refers to the same `opId`.
 - `bit_time_available` is a `defaultdict(int)`; it is modelled as an
   association list built only by assignments (`avSet`).  Reads of missing keys
   yield 0, exactly as the defaultdict does.  The defaultdict also *inserts* a
   key with value 0 on a read, but every key read during the main loop is
   subsequently assigned by the same iteration, and the keys inserted by the
   final padding reads are never used afterwards (`working_bits` is consumed
   before those reads), so dropping read-insertion is observationally faithful.
 - Durations are natural numbers (the 'dt' unit of the source requires
   non-negative integer durations); the duration table is an abstract function
   returning `Option Nat` (`None` models the TranspilerError raised by
   `InstructionDurations.get`).
 - Python's `max()` over an empty sequence raises `ValueError`; the embedding
   returns `.error` at exactly the same program points.
-/

namespace QiskitSched

/-- A wire of the circuit: one qubit or one clbit. -/
structure Bit where
  isQubit : Bool
  idx : Nat
deriving DecidableEq, Repr

/-- An instruction object: payload name, whether it is a `Delay`, and the
mutable `duration` / `unit` attributes. -/
structure Op where
  name : String
  isDelay : Bool
  duration : Option Nat
  unit : Option String
deriving DecidableEq, Repr

/-- The op object used as fallback when a heap index is out of range. -/
def noOp : Op := { name := "", isDelay := false, duration := none, unit := none }

/-- The op object stored at heap index `i` (models dereferencing `node.op`). -/
def opAt (heap : List Op) (i : Nat) : Op := heap.getD i noOp

/-- A DAG node: reference to its op object, quantum args, classical args and
the optional classical condition. -/
structure Node where
  opId : Nat
  qargs : List Bit
  cargs : List Bit
  condition : Option Nat
deriving DecidableEq, Repr

/-- A DAGCircuit: registers, wires, op nodes in topological order, and the
schedule metadata `duration` / `unit`. -/
structure DAG where
  qregs : List String
  cregs : List String
  qubits : List Bit
  clbits : List Bit
  nodes : List Node
  name : String
  duration : Option Nat
  unit : Option String
deriving DecidableEq, Repr

/-- A node lies on wire `b` iff `b` is among its quantum or classical args. -/
def onWire (b : Bit) (n : Node) : Prop := b ∈ n.qargs ∨ b ∈ n.cargs

instance (b : Bit) (n : Node) : Decidable (onWire b n) := by
  unfold onWire; infer_instance

/-- The source `dag.nodes_on_wire(b, only_ops=True)`: the ordered op nodes on wire `b`. -/
def laneN (ns : List Node) (b : Bit) : List Node :=
  ns.filter (fun n => decide (onWire b n))

/-- Duration of a node's op (0 stands for a still-unset duration). -/
def opDur (heap : List Op) (n : Node) : Nat := ((opAt heap n.opId).duration).getD 0

/-- Sum of the durations of the nodes on wire `b`. -/
def laneLoadD (heap : List Op) (ns : List Node) (b : Bit) : Nat :=
  ((laneN ns b).map (opDur heap)).sum

/-! ### The availability map (`bit_time_available`) -/

/-- Read `bit_time_available[b]` (a `defaultdict(int)`: missing keys read 0). -/
def avVal : List (Bit × Nat) → Bit → Nat
  | [], _ => 0
  | p :: m, b => if p.1 = b then p.2 else avVal m b

/-- Assignment `bit_time_available[b] = v`. -/
def avSet : List (Bit × Nat) → Bit → Nat → List (Bit × Nat)
  | [], b, v => [(b, v)]
  | p :: m, b, v => if p.1 = b then (b, v) :: m else p :: avSet m b v

/-- The loop `for b in bits: bit_time_available[b] = v`. -/
def avSetAll (v : Nat) : List Bit → List (Bit × Nat) → List (Bit × Nat)
  | [], m => m
  | b :: bs, m => avSetAll v bs (avSet m b v)

/-- Python `max(...)` over a list of naturals (the source only applies it to
non-empty sequences; on those this agrees with Python's `max`). -/
def listMax (l : List Nat) : Nat := l.foldl max 0

theorem foldl_max_init_le (l : List Nat) : ∀ a, a ≤ l.foldl max a := by
  induction l with
  | nil => intro a; simp
  | cons x xs ih =>
    intro a
    exact le_trans (le_max_left a x) (ih (max a x))

theorem foldl_max_le (l : List Nat) :
    ∀ a D, a ≤ D → (∀ x ∈ l, x ≤ D) → l.foldl max a ≤ D := by
  induction l with
  | nil => intro a D h _; simpa using h
  | cons x xs ih =>
    intro a D ha hall
    exact ih (max a x) D (max_le ha (hall x (List.mem_cons_self x xs)))
      (fun y hy => hall y (List.mem_cons_of_mem x hy))

theorem foldl_max_mono (l : List Nat) :
    ∀ a b, a ≤ b → l.foldl max a ≤ l.foldl max b := by
  induction l with
  | nil => intro a b h; simpa using h
  | cons x xs ih =>
    intro a b h
    exact ih (max a x) (max b x) (max_le_max h (le_refl x))

theorem le_listMax_of_mem {l : List Nat} {x : Nat} (h : x ∈ l) : x ≤ listMax l := by
  unfold listMax
  induction l with
  | nil => cases h
  | cons y ys ih =>
    simp only [List.foldl_cons]
    rcases List.mem_cons.mp h with h' | h'
    · subst h'
      exact le_trans (le_max_right 0 x) (foldl_max_init_le ys (max 0 x))
    · exact le_trans (ih h') (foldl_max_mono ys 0 (max 0 y) (Nat.zero_le _))

theorem listMax_all_eq {l : List Nat} {D : Nat} (hne : l ≠ [])
    (hall : ∀ x ∈ l, x = D) : listMax l = D := by
  apply le_antisymm
  · exact foldl_max_le l 0 D (Nat.zero_le D) (fun x hx => le_of_eq (hall x hx))
  · cases l with
    | nil => exact absurd rfl hne
    | cons y ys =>
      have : y = D := hall y (List.mem_cons_self y ys)
      subst this
      exact le_listMax_of_mem (List.mem_cons_self y ys)

theorem avVal_avSet_self (m : List (Bit × Nat)) (b : Bit) (v : Nat) :
    avVal (avSet m b v) b = v := by
  induction m with
  | nil => simp [avSet, avVal]
  | cons p m ih =>
    by_cases h : p.1 = b
    · simp [avSet, avVal, h]
    · simp [avSet, avVal, h, ih]

theorem avVal_avSet_ne (m : List (Bit × Nat)) (b : Bit) (v : Nat) (c : Bit)
    (h : c ≠ b) : avVal (avSet m b v) c = avVal m c := by
  induction m with
  | nil =>
    show avVal [(b, v)] c = avVal [] c
    show (if b = c then v else avVal [] c) = avVal [] c
    rw [if_neg (fun hh : b = c => h hh.symm)]
  | cons p m ih =>
    by_cases hp : p.1 = b
    · show avVal (if p.1 = b then (b, v) :: m else p :: avSet m b v) c = avVal (p :: m) c
      rw [if_pos hp]
      show (if b = c then v else avVal m c) = (if p.1 = c then p.2 else avVal m c)
      rw [if_neg (fun hh : b = c => h hh.symm),
        if_neg (fun hh : p.1 = c => h ((hp.symm.trans hh).symm))]
    · show avVal (if p.1 = b then (b, v) :: m else p :: avSet m b v) c = avVal (p :: m) c
      rw [if_neg hp]
      show (if p.1 = c then p.2 else avVal (avSet m b v) c)
          = (if p.1 = c then p.2 else avVal m c)
      by_cases hc : p.1 = c
      · rw [if_pos hc, if_pos hc]
      · rw [if_neg hc, if_neg hc, ih]

theorem avVal_avSetAll (v : Nat) (bs : List Bit) :
    ∀ (m : List (Bit × Nat)) (c : Bit),
      avVal (avSetAll v bs m) c = if c ∈ bs then v else avVal m c := by
  induction bs with
  | nil => intro m c; simp [avSetAll]
  | cons b bs ih =>
    intro m c
    by_cases hc : c ∈ bs
    · simp [avSetAll, ih, hc, List.mem_cons]
    · by_cases hb : c = b
      · subst hb
        simp [avSetAll, ih, hc, avVal_avSet_self]
      · simp [avSetAll, ih, hc, hb, avVal_avSet_ne m b v c hb]

theorem mem_avSet (m : List (Bit × Nat)) (b : Bit) (v : Nat) :
    ∀ p ∈ avSet m b v, p.1 = b ∨ p ∈ m := by
  induction m with
  | nil =>
    intro p hp
    rw [show avSet [] b v = [(b, v)] from rfl, List.mem_singleton] at hp
    subst hp; left; rfl
  | cons q m ih =>
    intro p hp
    by_cases hq : q.1 = b
    · rw [show avSet (q :: m) b v = if q.1 = b then (b, v) :: m else q :: avSet m b v from rfl,
        if_pos hq, List.mem_cons] at hp
      rcases hp with hp | hp
      · subst hp; left; rfl
      · right; exact List.mem_cons_of_mem q hp
    · rw [show avSet (q :: m) b v = if q.1 = b then (b, v) :: m else q :: avSet m b v from rfl,
        if_neg hq, List.mem_cons] at hp
      rcases hp with hp | hp
      · right; rw [hp]; exact List.mem_cons_self q m
      · rcases ih p hp with h | h
        · left; exact h
        · right; exact List.mem_cons_of_mem q h

theorem mem_avSetAll (v : Nat) (bs : List Bit) :
    ∀ (m : List (Bit × Nat)), ∀ p ∈ avSetAll v bs m, p.1 ∈ bs ∨ p ∈ m := by
  induction bs with
  | nil => intro m p hp; right; exact hp
  | cons b bs ih =>
    intro m p hp
    rcases ih (avSet m b v) p (by simpa [avSetAll] using hp) with h | h
    · left; exact List.mem_cons_of_mem b h
    · rcases mem_avSet m b v p h with h' | h'
      · left; rw [h']; exact List.mem_cons_self b bs
      · right; exact h'

theorem avVal_not_key (m : List (Bit × Nat)) (b : Bit)
    (h : b ∉ m.map Prod.fst) : avVal m b = 0 := by
  induction m with
  | nil => rfl
  | cons p m ih =>
    simp only [List.map_cons, List.mem_cons] at h
    push_neg at h
    show (if p.1 = b then p.2 else avVal m b) = 0
    rw [if_neg (fun hh : p.1 = b => h.1 hh.symm), ih h.2]

theorem avVal_le_keysMax (m : List (Bit × Nat)) (b : Bit) :
    avVal m b ≤ listMax ((m.map Prod.fst).map (avVal m)) := by
  by_cases h : b ∈ m.map Prod.fst
  · exact le_listMax_of_mem (List.mem_map_of_mem (avVal m) h)
  · rw [avVal_not_key m b h]; exact Nat.zero_le _

/-! ### Heap access lemmas -/

theorem opAt_append_lt (h₁ h₂ : List Op) (i : Nat) (h : i < h₁.length) :
    opAt (h₁ ++ h₂) i = opAt h₁ i := by
  unfold opAt
  induction h₁ generalizing i with
  | nil => exact absurd h (Nat.not_lt_zero i)
  | cons x xs ih =>
    cases i with
    | zero => simp [List.getD]
    | succ j =>
      simp only [List.cons_append, List.getD_cons_succ]
      exact ih j (Nat.lt_of_succ_lt_succ h)

theorem opAt_snoc_len (h : List Op) (x : Op) : opAt (h ++ [x]) h.length = x := by
  unfold opAt
  induction h with
  | nil => simp [List.getD]
  | cons y ys ih => simp only [List.cons_append, List.length_cons, List.getD_cons_succ]; exact ih

theorem opAt_set_self (h : List Op) (i : Nat) (x : Op) (hi : i < h.length) :
    opAt (h.set i x) i = x := by
  unfold opAt
  induction h generalizing i with
  | nil => exact absurd hi (Nat.not_lt_zero i)
  | cons y ys ih =>
    cases i with
    | zero => simp
    | succ j =>
      simp only [List.set_cons_succ, List.getD_cons_succ]
      exact ih j (Nat.lt_of_succ_lt_succ hi)

theorem opAt_set_ne (h : List Op) (i : Nat) (x : Op) (j : Nat) (hj : j ≠ i) :
    opAt (h.set i x) j = opAt h j := by
  unfold opAt
  induction h generalizing i j with
  | nil => simp
  | cons y ys ih =>
    cases i with
    | zero =>
      cases j with
      | zero => exact absurd rfl hj
      | succ k => simp
    | succ i' =>
      cases j with
      | zero => simp
      | succ k =>
        simp only [List.set_cons_succ, List.getD_cons_succ]
        exact ih i' k (fun hh => hj (congrArg Nat.succ hh))

theorem set_of_length_le (h : List Op) (i : Nat) (x : Op) (hi : h.length ≤ i) :
    h.set i x = h := by
  induction h generalizing i with
  | nil => rfl
  | cons y ys ih =>
    cases i with
    | zero => exact absurd hi (by simp)
    | succ j =>
      simp only [List.set_cons_succ, List.cons.injEq, true_and]
      exact ih j (Nat.le_of_succ_le_succ hi)

/-! ### The ASAP scheduling pass (`ASAPSchedule.run`) -/

/-- State threaded through `ASAPSchedule.run`: the op heap, the output nodes
built so far (paired with the start time the scheduler places them at), and
`bit_time_available`. -/
structure SState where
  heap : List Op
  out : List (Node × Nat)
  avail : List (Bit × Nat)
deriving DecidableEq, Repr

/-- The `Delay(idle_duration, unit, isinstance(b, Qubit))` instruction object. -/
def mkDelayOp (d : Nat) (unit : String) : Op :=
  { name := "delay", isDelay := true, duration := some d, unit := some unit }

/-- The node created for a padding delay on wire `b`, with op heap index `j`
(`[b]/[]` or `[]/[b]` mirrors the qargs/cargs choice in `pad_with_delays`). -/
def padNode (j : Nat) (b : Bit) : Node :=
  { opId := j
    qargs := if b.isQubit then [b] else []
    cargs := if b.isQubit then [] else [b]
    condition := none }

/-- The source `pad_with_delays(bits, until, unit)`: for each bit whose availability is
below `until_`, append one fresh single-wire `Delay` node of the missing
duration.  The availability map is read but never written here, exactly as in
the source. -/
def padWithDelays (m : List (Bit × Nat)) (until_ : Nat) (unit : String) :
    List Bit → List Op → List (Node × Nat) → List Op × List (Node × Nat)
  | [], heap, out => (heap, out)
  | b :: bs, heap, out =>
    if avVal m b < until_ then
      padWithDelays m until_ unit bs (heap ++ [mkDelayOp (until_ - avVal m b) unit])
        (out ++ [(padNode heap.length b, avVal m b)])
    else
      padWithDelays m until_ unit bs heap out

/-- The in-place update `op.duration = duration; op.unit = time_unit`. -/
def withTiming (o : Op) (d : Nat) (u : String) : Op :=
  { o with duration := some d, unit := some u }

/-- The source `start_time = max(bit_time_available[b] for b in node_bits)` (the bits of
a node are `node.qargs + node.cargs`). -/
def startOf (st : SState) (n : Node) : Nat :=
  listMax ((n.qargs ++ n.cargs).map (avVal st.avail))

/-- One iteration of the `for node in dag.topological_op_nodes()` loop:
compute the start time as the maximal availability over the node's bits, pad
the late wires, append the node, resolve and assign its duration (mutating the
shared op object in the heap), and advance the availability of every touched
bit to the common stop time.  A node with no bits makes Python's `max` raise;
an unresolvable duration raises `TranspilerError`. -/
def asapStep (dur : Op → List Bit → String → Option Nat) (unit : String)
    (st : SState) (n : Node) : Except String SState :=
  if n.qargs ++ n.cargs = [] then .error ("max() arg is an empty sequence")
  else
    match dur
        (opAt (padWithDelays st.avail (startOf st n) unit (n.qargs ++ n.cargs)
          st.heap st.out).1 n.opId)
        n.qargs unit with
    | none => .error ("duration is not found")
    | some d =>
      .ok { heap :=
              (padWithDelays st.avail (startOf st n) unit (n.qargs ++ n.cargs)
                st.heap st.out).1.set n.opId
                (withTiming
                  (opAt (padWithDelays st.avail (startOf st n) unit
                    (n.qargs ++ n.cargs) st.heap st.out).1 n.opId) d unit)
            out := (padWithDelays st.avail (startOf st n) unit (n.qargs ++ n.cargs)
                st.heap st.out).2 ++ [(n, startOf st n)]
            avail := avSetAll (startOf st n + d) (n.qargs ++ n.cargs) st.avail }

/-- The whole traversal loop of `ASAPSchedule.run`. -/
def schedLoop (dur : Op → List Bit → String → Option Nat) (unit : String) :
    SState → List Node → Except String SState
  | st, [] => .ok st
  | st, n :: rest =>
    match asapStep dur unit st n with
    | .error e => .error e
    | .ok st' => schedLoop dur unit st' rest

/-- The source `ASAPSchedule.run(dag, time_unit)`.  Returns the final heap, the newly
built scheduled DAG, and the output nodes paired with their assigned start
times (the start times are the successive values of `start_time`; the DAG's
node list is their first projection). -/
def asapSchedule (dur : Op → List Bit → String → Option Nat) (heap : List Op)
    (dag : DAG) (unit : String) :
    Except String (List Op × DAG × List (Node × Nat)) :=
  if dag.qregs.length = 1 ∧ ("q") ∈ dag.qregs then
    match schedLoop dur unit { heap := heap, out := [], avail := [] } dag.nodes with
    | .error e => .error e
    | .ok st =>
      if st.avail.map Prod.fst = [] then .error ("max() arg is an empty sequence")
      else
        let circuitDuration := listMax ((st.avail.map Prod.fst).map (avVal st.avail))
        let pr1 := padWithDelays st.avail circuitDuration unit dag.qubits st.heap st.out
        let pr2 := padWithDelays st.avail circuitDuration unit dag.clbits pr1.1 pr1.2
        .ok (pr2.1,
          { qregs := dag.qregs, cregs := dag.cregs, qubits := dag.qubits
            clbits := dag.clbits, nodes := pr2.2.map Prod.fst, name := dag.name
            duration := some circuitDuration, unit := some unit },
          pr2.2)
  else .error ("ASAP schedule runs on physical circuits only")

/-! ### The idle-delay removal pass (`RemoveDelaysOnIdleQubits.run`) -/

/-- One iteration of the `for q in dag.qubits` loop: if every op node on wire
`q` is a `Delay`, remove all nodes on that wire and record that a removal
round happened. -/
def remStep (heap : List Op) (acc : DAG × Bool) (q : Bit) : DAG × Bool :=
  if (laneN acc.1.nodes q).all (fun n => (opAt heap n.opId).isDelay) then
    ({ acc.1 with nodes := acc.1.nodes.filter (fun n => !(decide (onWire q n))) }, true)
  else acc

/-- The whole `for q in dag.qubits` loop. -/
def remFold (heap : List Op) : List Bit → DAG × Bool → DAG × Bool
  | [], acc => acc
  | q :: qs, acc => remFold heap qs (remStep heap acc q)

/-- The duration recomputation: `circuit_duration = max(per_qubit, circuit_duration)`
over the qubits, starting from 0 (classical wires are not visited). -/
def recomputeDuration (heap : List Op) (d : DAG) : Nat :=
  d.qubits.foldl (fun acc q => max (laneLoadD heap d.nodes q) acc) 0

/-- The source `RemoveDelaysOnIdleQubits.run(dag)`. -/
def removeDelaysOnIdleQubits (heap : List Op) (dag : DAG) : Except String DAG :=
  match dag.duration with
  | none => .error ("RemoveDelaysOnIdleQubits runs on scheduled circuits only")
  | some _ =>
    let r := remFold heap dag.qubits (dag, false)
    if r.2 then .ok { r.1 with duration := some (recomputeDuration heap r.1) }
    else .ok r.1

/-! ### Lane projections of the timed output -/

/-- The (node, start-time) pairs of the output restricted to wire `b`,
in insertion order. -/
def laneT (out : List (Node × Nat)) (b : Bit) : List (Node × Nat) :=
  out.filter (fun p => decide (onWire b p.1))

/-- Total duration of a list of timed nodes. -/
def loadOf (heap : List Op) (l : List (Node × Nat)) : Nat :=
  (l.map (fun p => opDur heap p.1)).sum

/-- Occupied time of wire `b` in the output built so far. -/
def laneLoad (heap : List Op) (out : List (Node × Nat)) (b : Bit) : Nat :=
  loadOf heap (laneT out b)

/-- The predicate `contigFromB heap t l` holds when the timed nodes `l` tile the wire
contiguously starting at time `t`: each node starts exactly where the previous
one ends. -/
def contigFromB (heap : List Op) : Nat → List (Node × Nat) → Bool
  | _, [] => true
  | t, p :: rest => decide (p.2 = t) && contigFromB heap (t + opDur heap p.1) rest

/-! ### Lane and contiguity lemmas -/

theorem laneT_append (o o' : List (Node × Nat)) (b : Bit) :
    laneT (o ++ o') b = laneT o b ++ laneT o' b := by
  unfold laneT; rw [List.filter_append]

theorem onWire_padNode (b b' : Bit) (j : Nat) : onWire b (padNode j b') ↔ b = b' := by
  unfold onWire padNode
  by_cases h : b'.isQubit <;> simp [h]

theorem laneT_padNode_self (j : Nat) (b : Bit) (a : Nat) :
    laneT [(padNode j b, a)] b = [(padNode j b, a)] := by
  unfold laneT
  rw [List.filter_singleton]
  simp [onWire_padNode]

theorem laneT_padNode_ne (j : Nat) (b b' : Bit) (a : Nat) (h : b' ≠ b) :
    laneT [(padNode j b, a)] b' = [] := by
  unfold laneT
  rw [List.filter_singleton]
  simp [onWire_padNode, h]

theorem laneT_node_mem (n : Node) (t : Nat) (b : Bit) (h : onWire b n) :
    laneT [(n, t)] b = [(n, t)] := by
  unfold laneT
  rw [List.filter_singleton]
  simp [h]

theorem laneT_node_not_mem (n : Node) (t : Nat) (b : Bit) (h : ¬ onWire b n) :
    laneT [(n, t)] b = [] := by
  unfold laneT
  rw [List.filter_singleton]
  simp [h]

theorem laneT_mem_sub {out : List (Node × Nat)} {b : Bit} {p : Node × Nat}
    (h : p ∈ laneT out b) : p ∈ out := List.mem_of_mem_filter h

theorem loadOf_append (h : List Op) (l l' : List (Node × Nat)) :
    loadOf h (l ++ l') = loadOf h l + loadOf h l' := by
  unfold loadOf; rw [List.map_append, List.sum_append]

theorem loadOf_congr (h₁ h₂ : List Op) (l : List (Node × Nat))
    (hc : ∀ p ∈ l, opDur h₁ p.1 = opDur h₂ p.1) : loadOf h₁ l = loadOf h₂ l := by
  unfold loadOf
  congr 1
  exact List.map_congr_left (fun p hp => hc p hp)

theorem contig_congr (h₁ h₂ : List Op) (l : List (Node × Nat))
    (hc : ∀ p ∈ l, opDur h₁ p.1 = opDur h₂ p.1) :
    ∀ t, contigFromB h₁ t l = contigFromB h₂ t l := by
  induction l with
  | nil => intro t; rfl
  | cons p rest ih =>
    intro t
    show (decide (p.2 = t) && contigFromB h₁ (t + opDur h₁ p.1) rest)
        = (decide (p.2 = t) && contigFromB h₂ (t + opDur h₂ p.1) rest)
    rw [hc p (List.mem_cons_self p rest),
      ih (fun q hq => hc q (List.mem_cons_of_mem p hq))]

theorem loadOf_cons (h : List Op) (q : Node × Nat) (l : List (Node × Nat)) :
    loadOf h (q :: l) = opDur h q.1 + loadOf h l := by
  unfold loadOf; rw [List.map_cons, List.sum_cons]

theorem contig_append_single (h : List Op) (p : Node × Nat) (l : List (Node × Nat)) :
    ∀ t, contigFromB h t (l ++ [p]) = true ↔
      (contigFromB h t l = true ∧ p.2 = t + loadOf h l) := by
  induction l with
  | nil =>
    intro t
    show (decide (p.2 = t) && contigFromB h (t + opDur h p.1) []) = true ↔ _
    simp [contigFromB, loadOf]
  | cons q rest ih =>
    intro t
    show (decide (q.2 = t) && contigFromB h (t + opDur h q.1) (rest ++ [p])) = true ↔
      ((decide (q.2 = t) && contigFromB h (t + opDur h q.1) rest) = true
        ∧ p.2 = t + loadOf h (q :: rest))
    rw [Bool.and_eq_true, Bool.and_eq_true, decide_eq_true_iff,
      ih (t + opDur h q.1), loadOf_cons, ← Nat.add_assoc]
    tauto

theorem laneN_of_laneT (o : List (Node × Nat)) (b : Bit) :
    laneN (o.map Prod.fst) b = (laneT o b).map Prod.fst := by
  unfold laneN laneT
  induction o with
  | nil => rfl
  | cons p rest ih =>
    by_cases h : onWire b p.1
    · simp only [List.map_cons, List.filter_cons]
      rw [if_pos (by simpa using h), if_pos (by simpa using h)]
      simp [ih]
    · simp only [List.map_cons, List.filter_cons]
      rw [if_neg (by simpa using h), if_neg (by simpa using h)]
      exact ih

theorem laneLoadD_of_out (heap : List Op) (o : List (Node × Nat)) (b : Bit) :
    laneLoadD heap (o.map Prod.fst) b = laneLoad heap o b := by
  unfold laneLoadD laneLoad loadOf
  rw [laneN_of_laneT, List.map_map]
  rfl

/-! ### Behaviour of `pad_with_delays` -/

theorem padWD_len (m : List (Bit × Nat)) (until_ : Nat) (unit : String) :
    ∀ (bits : List Bit) (heap : List Op) (out : List (Node × Nat)),
      heap.length ≤ (padWithDelays m until_ unit bits heap out).1.length := by
  intro bits
  induction bits with
  | nil => intro heap out; exact le_refl _
  | cons b bs ih =>
    intro heap out
    unfold padWithDelays
    by_cases h : avVal m b < until_
    · rw [if_pos h]
      calc heap.length ≤ (heap ++ [mkDelayOp (until_ - avVal m b) unit]).length := by
            rw [List.length_append]; exact Nat.le_add_right _ _
        _ ≤ _ := ih _ _
    · rw [if_neg h]
      exact ih heap out

theorem padWD_front (m : List (Bit × Nat)) (until_ : Nat) (unit : String) :
    ∀ (bits : List Bit) (heap : List Op) (out : List (Node × Nat)) (i : Nat),
      i < heap.length →
      opAt (padWithDelays m until_ unit bits heap out).1 i = opAt heap i := by
  intro bits
  induction bits with
  | nil => intro heap out i _; rfl
  | cons b bs ih =>
    intro heap out i hi
    unfold padWithDelays
    by_cases h : avVal m b < until_
    · rw [if_pos h]
      rw [ih _ _ i (by rw [List.length_append]; exact Nat.lt_of_lt_of_le hi (Nat.le_add_right _ _))]
      exact opAt_append_lt heap [mkDelayOp (until_ - avVal m b) unit] i hi
    · rw [if_neg h]
      exact ih heap out i hi

theorem padWD_outIds (m : List (Bit × Nat)) (until_ : Nat) (unit : String) :
    ∀ (bits : List Bit) (heap : List Op) (out : List (Node × Nat)),
      (∀ p ∈ out, p.1.opId < heap.length) →
      ∀ p ∈ (padWithDelays m until_ unit bits heap out).2,
        p.1.opId < (padWithDelays m until_ unit bits heap out).1.length := by
  intro bits
  induction bits with
  | nil => intro heap out hout p hp; exact hout p hp
  | cons b bs ih =>
    intro heap out hout
    unfold padWithDelays
    by_cases h : avVal m b < until_
    · rw [if_pos h]
      apply ih
      intro p hp
      rcases List.mem_append.mp hp with hp | hp
      · rw [List.length_append]
        exact Nat.lt_of_lt_of_le (hout p hp) (Nat.le_add_right _ _)
      · rw [List.mem_singleton] at hp
        subst hp
        rw [List.length_append]
        show heap.length < heap.length + 1
        exact Nat.lt_succ_self _
    · rw [if_neg h]
      exact ih heap out hout

theorem padWD_newIds (m : List (Bit × Nat)) (until_ : Nat) (unit : String) :
    ∀ (bits : List Bit) (heap : List Op) (out : List (Node × Nat)),
      ∀ p ∈ (padWithDelays m until_ unit bits heap out).2,
        p ∈ out ∨ heap.length ≤ p.1.opId := by
  intro bits
  induction bits with
  | nil => intro heap out p hp; left; exact hp
  | cons b bs ih =>
    intro heap out p
    unfold padWithDelays
    by_cases h : avVal m b < until_
    · rw [if_pos h]
      intro hp
      rcases ih _ _ p hp with hp' | hp'
      · rcases List.mem_append.mp hp' with hp'' | hp''
        · left; exact hp''
        · rw [List.mem_singleton] at hp''
          subst hp''
          right
          exact le_refl _
      · right
        rw [List.length_append] at hp'
        exact le_trans (Nat.le_add_right _ _) hp'
    · rw [if_neg h]
      exact ih heap out p

theorem padWD_lane_notin (m : List (Bit × Nat)) (until_ : Nat) (unit : String) :
    ∀ (bits : List Bit) (heap : List Op) (out : List (Node × Nat)) (b : Bit),
      b ∉ bits →
      laneT (padWithDelays m until_ unit bits heap out).2 b = laneT out b := by
  intro bits
  induction bits with
  | nil => intro heap out b _; rfl
  | cons c bs ih =>
    intro heap out b hb
    have hbc : b ≠ c := fun hh => hb (hh ▸ List.mem_cons_self c bs)
    have hbs : b ∉ bs := fun hh => hb (List.mem_cons_of_mem c hh)
    unfold padWithDelays
    by_cases h : avVal m c < until_
    · rw [if_pos h, ih _ _ b hbs, laneT_append, laneT_padNode_ne _ _ _ _ hbc,
        List.append_nil]
    · rw [if_neg h]
      exact ih heap out b hbs

theorem padWD_lane_nohit (m : List (Bit × Nat)) (until_ : Nat) (unit : String) :
    ∀ (bits : List Bit) (heap : List Op) (out : List (Node × Nat)) (b : Bit),
      ¬ avVal m b < until_ →
      laneT (padWithDelays m until_ unit bits heap out).2 b = laneT out b := by
  intro bits
  induction bits with
  | nil => intro heap out b _; rfl
  | cons c bs ih =>
    intro heap out b hb
    unfold padWithDelays
    by_cases h : avVal m c < until_
    · have hbc : b ≠ c := fun hh => hb (hh ▸ h)
      rw [if_pos h, ih _ _ b hb, laneT_append, laneT_padNode_ne _ _ _ _ hbc,
        List.append_nil]
    · rw [if_neg h]
      exact ih heap out b hb

theorem padWD_lane_hit (m : List (Bit × Nat)) (until_ : Nat) (unit : String) :
    ∀ (bits : List Bit) (heap : List Op) (out : List (Node × Nat)) (b : Bit),
      bits.Nodup → b ∈ bits → avVal m b < until_ →
      ∃ j, heap.length ≤ j ∧
        laneT (padWithDelays m until_ unit bits heap out).2 b
          = laneT out b ++ [(padNode j b, avVal m b)] ∧
        opAt (padWithDelays m until_ unit bits heap out).1 j
          = mkDelayOp (until_ - avVal m b) unit := by
  intro bits
  induction bits with
  | nil => intro heap out b _ hb; cases hb
  | cons c bs ih =>
    intro heap out b hnd hb hdef
    have hnd' := List.nodup_cons.mp hnd
    unfold padWithDelays
    rcases List.mem_cons.mp hb with hb' | hb'
    · subst hb'
      rw [if_pos hdef]
      refine ⟨heap.length, le_refl _, ?_, ?_⟩
      · rw [padWD_lane_notin m until_ unit bs _ _ b hnd'.1, laneT_append,
          laneT_padNode_self]
      · rw [padWD_front m until_ unit bs _ _ heap.length
          (by rw [List.length_append]; exact Nat.lt_succ_self _)]
        exact opAt_snoc_len heap _
    · have hbc : b ≠ c := fun hh => hnd'.1 (hh ▸ hb')
      by_cases h : avVal m c < until_
      · rw [if_pos h]
        rcases ih _ _ b hnd'.2 hb' hdef with ⟨j, hj1, hj2, hj3⟩
        refine ⟨j, ?_, ?_, hj3⟩
        · rw [List.length_append] at hj1
          exact le_trans (Nat.le_add_right _ _) hj1
        · rw [hj2, laneT_append, laneT_padNode_ne _ _ _ _ hbc, List.append_nil]
      · rw [if_neg h]
        exact ih _ _ b hnd'.2 hb' hdef

/-! ### Behaviour of one scheduling step -/

theorem avVal_le_startOf (st : SState) (n : Node) (b : Bit)
    (hb : b ∈ n.qargs ++ n.cargs) : avVal st.avail b ≤ startOf st n :=
  le_listMax_of_mem (List.mem_map_of_mem (avVal st.avail) hb)

theorem asapStep_spec (dur : Op → List Bit → String → Option Nat) (unit : String)
    (st : SState) (n : Node) (st₁ : SState)
    (hok : asapStep dur unit st n = .ok st₁)
    (hid : n.opId < st.heap.length)
    (hnd : (n.qargs ++ n.cargs).Nodup)
    (houtid : ∀ p ∈ st.out, p.1.opId < st.heap.length) :
    ∃ d,
      st.heap.length ≤ st₁.heap.length ∧
      (∀ i, i < st.heap.length → i ≠ n.opId → opAt st₁.heap i = opAt st.heap i) ∧
      opAt st₁.heap n.opId = withTiming (opAt st.heap n.opId) d unit ∧
      opDur st₁.heap n = d ∧
      (∀ p ∈ st₁.out, p.1.opId < st₁.heap.length) ∧
      (∀ p ∈ st₁.out, p ∈ st.out ∨ st.heap.length ≤ p.1.opId ∨ p = (n, startOf st n)) ∧
      (∀ b, avVal st₁.avail b =
        if b ∈ n.qargs ++ n.cargs then startOf st n + d else avVal st.avail b) ∧
      (∀ p ∈ st₁.avail, p.1 ∈ n.qargs ++ n.cargs ∨ p ∈ st.avail) ∧
      (∀ b, b ∉ n.qargs ++ n.cargs → laneT st₁.out b = laneT st.out b) ∧
      (∀ b ∈ n.qargs ++ n.cargs,
        (avVal st.avail b < startOf st n →
          ∃ j, st.heap.length ≤ j ∧
            laneT st₁.out b = laneT st.out b
              ++ [(padNode j b, avVal st.avail b), (n, startOf st n)] ∧
            opDur st₁.heap (padNode j b) = startOf st n - avVal st.avail b) ∧
        (avVal st.avail b = startOf st n →
          laneT st₁.out b = laneT st.out b ++ [(n, startOf st n)])) := by
  unfold asapStep at hok
  by_cases hne : n.qargs ++ n.cargs = []
  · rw [if_pos hne] at hok
    exact absurd hok (by simp)
  rw [if_neg hne] at hok
  rcases hd : dur
      (opAt (padWithDelays st.avail (startOf st n) unit (n.qargs ++ n.cargs)
        st.heap st.out).1 n.opId) n.qargs unit with _ | d
  · rw [hd] at hok
    exact absurd hok (by simp)
  rw [hd] at hok
  simp only [Except.ok.injEq] at hok
  subst hok
  refine ⟨d, ?_, ?_, ?_, ?_, ?_, ?_, ?_, ?_, ?_, ?_⟩
  · show st.heap.length ≤ (List.set _ _ _).length
    rw [List.length_set]
    exact padWD_len st.avail (startOf st n) unit (n.qargs ++ n.cargs) st.heap st.out
  · intro i hi hine
    show opAt (List.set _ _ _) i = opAt st.heap i
    rw [opAt_set_ne _ _ _ _ hine]
    exact padWD_front st.avail (startOf st n) unit (n.qargs ++ n.cargs) st.heap st.out i hi
  · show opAt (List.set _ _ _) n.opId = _
    rw [opAt_set_self _ _ _
        (Nat.lt_of_lt_of_le hid (padWD_len st.avail (startOf st n) unit _ st.heap st.out)),
      padWD_front st.avail (startOf st n) unit (n.qargs ++ n.cargs) st.heap st.out n.opId hid]
  · show ((opAt (List.set _ _ _) n.opId).duration).getD 0 = d
    rw [opAt_set_self _ _ _
        (Nat.lt_of_lt_of_le hid (padWD_len st.avail (startOf st n) unit _ st.heap st.out))]
    rfl
  · intro p hp
    show p.1.opId < (List.set _ _ _).length
    rw [List.length_set]
    rcases List.mem_append.mp hp with hp' | hp'
    · exact padWD_outIds st.avail (startOf st n) unit (n.qargs ++ n.cargs)
        st.heap st.out houtid p hp'
    · rw [List.mem_singleton] at hp'
      subst hp'
      exact Nat.lt_of_lt_of_le hid (padWD_len st.avail (startOf st n) unit _ st.heap st.out)
  · intro p hp
    rcases List.mem_append.mp hp with hp' | hp'
    · rcases padWD_newIds st.avail (startOf st n) unit (n.qargs ++ n.cargs)
        st.heap st.out p hp' with h | h
      · left; exact h
      · right; left; exact h
    · rw [List.mem_singleton] at hp'
      right; right; exact hp'
  · intro b
    exact avVal_avSetAll (startOf st n + d) (n.qargs ++ n.cargs) st.avail b
  · intro p hp
    exact mem_avSetAll (startOf st n + d) (n.qargs ++ n.cargs) st.avail p hp
  · intro b hb
    show laneT (_ ++ [(n, startOf st n)]) b = laneT st.out b
    rw [laneT_append, laneT_node_not_mem n (startOf st n) b
        (fun hw => hb (List.mem_append.mpr hw)),
      List.append_nil]
    exact padWD_lane_notin st.avail (startOf st n) unit (n.qargs ++ n.cargs)
      st.heap st.out b (fun hh => by
        rcases List.mem_append.mp hh with h | h
        · exact hb (List.mem_append.mpr (Or.inl h))
        · exact hb (List.mem_append.mpr (Or.inr h)))
  · intro b hb
    have hwire : onWire b n := List.mem_append.mp hb
    constructor
    · intro hdef
      rcases padWD_lane_hit st.avail (startOf st n) unit (n.qargs ++ n.cargs)
        st.heap st.out b hnd hb hdef with ⟨j, hj1, hj2, hj3⟩
      refine ⟨j, hj1, ?_, ?_⟩
      · show laneT (_ ++ [(n, startOf st n)]) b = _
        rw [laneT_append, laneT_node_mem n (startOf st n) b hwire, hj2,
          List.append_assoc]
        rfl
      · show ((opAt (List.set _ _ _) (padNode j b).opId).duration).getD 0 = _
        have hjne : (padNode j b).opId ≠ n.opId :=
          fun hh => absurd hid (by
            show ¬ n.opId < st.heap.length
            rw [← hh]
            show ¬ j < st.heap.length
            exact Nat.not_lt.mpr hj1)
        rw [opAt_set_ne _ _ _ _ hjne]
        show ((opAt _ j).duration).getD 0 = _
        rw [hj3]
        rfl
    · intro heq
      have hndef : ¬ avVal st.avail b < startOf st n := by rw [heq]; exact Nat.lt_irrefl _
      show laneT (_ ++ [(n, startOf st n)]) b = _
      rw [laneT_append, laneT_node_mem n (startOf st n) b hwire,
        padWD_lane_nohit st.avail (startOf st n) unit (n.qargs ++ n.cargs)
          st.heap st.out b hndef]

theorem loadOf_pair (h : List Op) (p1 p2 : Node × Nat) :
    loadOf h [p1, p2] = opDur h p1.1 + opDur h p2.1 := by
  unfold loadOf; simp

theorem loadOf_single (h : List Op) (p : Node × Nat) :
    loadOf h [p] = opDur h p.1 := by
  unfold loadOf; simp

theorem contig_snoc2 (h : List Op) (l : List (Node × Nat)) (p1 p2 : Node × Nat) :
    contigFromB h 0 (l ++ [p1, p2]) = true ↔
      (contigFromB h 0 l = true ∧ p1.2 = loadOf h l
        ∧ p2.2 = loadOf h l + opDur h p1.1) := by
  have hsplit : l ++ [p1, p2] = (l ++ [p1]) ++ [p2] := by simp
  rw [hsplit, contig_append_single, contig_append_single, loadOf_append, loadOf_single]
  simp only [Nat.zero_add]
  tauto

/-! ### The scheduling loop invariant -/

theorem schedLoop_inv (dur : Op → List Bit → String → Option Nat) (unit : String)
    (B : Nat) (dagBits : List Bit) :
    ∀ (rest : List Node) (st st' : SState),
      schedLoop dur unit st rest = .ok st' →
      B ≤ st.heap.length →
      (∀ p ∈ st.out, p.1.opId < st.heap.length) →
      (∀ p ∈ st.out, ∀ k ∈ rest, p.1.opId ≠ k.opId) →
      (∀ b, contigFromB st.heap 0 (laneT st.out b) = true) →
      (∀ b, laneLoad st.heap st.out b = avVal st.avail b) →
      (∀ p ∈ st.avail, p.1 ∈ dagBits) →
      (∀ k ∈ rest, k.opId < B ∧ (k.qargs ++ k.cargs).Nodup
        ∧ ∀ b ∈ k.qargs ++ k.cargs, b ∈ dagBits) →
      (rest.map (fun k => k.opId)).Nodup →
      B ≤ st'.heap.length ∧
      (∀ p ∈ st'.out, p.1.opId < st'.heap.length) ∧
      (∀ b, contigFromB st'.heap 0 (laneT st'.out b) = true) ∧
      (∀ b, laneLoad st'.heap st'.out b = avVal st'.avail b) ∧
      (∀ p ∈ st'.avail, p.1 ∈ dagBits) ∧
      (∀ i, i < B → (opAt st'.heap i).name = (opAt st.heap i).name
        ∧ (opAt st'.heap i).isDelay = (opAt st.heap i).isDelay) := by
  intro rest
  induction rest with
  | nil =>
    intro st st' hok hB houtid _ hcontig hload hkeys _ _
    have hst : st = st' := by
      have : Except.ok (ε := String) st = Except.ok st' := hok
      simpa using this
    subst hst
    exact ⟨hB, houtid, hcontig, hload, hkeys, fun i _ => ⟨rfl, rfl⟩⟩
  | cons n rest' ih =>
    intro st st' hok hB houtid houtne hcontig hload hkeys hrest hndup
    have hrn := hrest n (List.mem_cons_self n rest')
    rcases hstep : asapStep dur unit st n with e | st₁
    · rw [show schedLoop dur unit st (n :: rest')
          = match asapStep dur unit st n with
            | .error e => .error e
            | .ok st'' => schedLoop dur unit st'' rest' from rfl, hstep] at hok
      exact absurd hok (by simp)
    rw [show schedLoop dur unit st (n :: rest')
        = match asapStep dur unit st n with
          | .error e => .error e
          | .ok st'' => schedLoop dur unit st'' rest' from rfl, hstep] at hok
    obtain ⟨d, S1, S2, S3, S4, S5, S6, S7, S8, S9, S10⟩ :=
      asapStep_spec dur unit st n st₁ hstep
        (Nat.lt_of_lt_of_le hrn.1 hB) hrn.2.1 houtid
    have hcopy := hndup
    rw [List.map_cons, List.nodup_cons] at hcopy
    have hheadne : ∀ k ∈ rest', n.opId ≠ k.opId := by
      intro k hk hh
      exact hcopy.1 (hh ▸ List.mem_map_of_mem (fun k => k.opId) hk)
    have hdurStable : ∀ p ∈ st.out, opDur st₁.heap p.1 = opDur st.heap p.1 := by
      intro p hp
      unfold opDur
      rw [S2 p.1.opId (houtid p hp) (houtne p hp n (List.mem_cons_self n rest'))]
    have hlaneStable : ∀ b, ∀ p ∈ laneT st.out b, opDur st₁.heap p.1 = opDur st.heap p.1 :=
      fun b p hp => hdurStable p (laneT_mem_sub hp)
    have hloadStable : ∀ b, loadOf st₁.heap (laneT st.out b) = loadOf st.heap (laneT st.out b) :=
      fun b => loadOf_congr _ _ _ (hlaneStable b)
    have hB₁ : B ≤ st₁.heap.length := le_trans hB S1
    have houtne₁ : ∀ p ∈ st₁.out, ∀ k ∈ rest', p.1.opId ≠ k.opId := by
      intro p hp k hk
      rcases S6 p hp with h | h | h
      · exact houtne p h k (List.mem_cons_of_mem n hk)
      · have hkB : k.opId < B := (hrest k (List.mem_cons_of_mem n hk)).1
        exact fun hh => absurd (hh ▸ h) (Nat.not_le.mpr (Nat.lt_of_lt_of_le hkB hB))
      · rw [h]
        exact hheadne k hk
    have hcontig₁ : ∀ b, contigFromB st₁.heap 0 (laneT st₁.out b) = true := by
      intro b
      by_cases hb : b ∈ n.qargs ++ n.cargs
      · have hle := avVal_le_startOf st n b hb
        rcases Nat.lt_or_eq_of_le hle with hdef | heq
        · rcases (S10 b hb).1 hdef with ⟨j, _, hlane, hdur⟩
          rw [hlane, contig_snoc2]
          refine ⟨?_, ?_, ?_⟩
          · rw [contig_congr st₁.heap st.heap _ (hlaneStable b) 0]
            exact hcontig b
          · show avVal st.avail b = loadOf st₁.heap (laneT st.out b)
            rw [hloadStable b]
            exact (hload b).symm
          · show startOf st n = loadOf st₁.heap (laneT st.out b) + opDur st₁.heap (padNode j b)
            rw [hloadStable b, hdur]
            show startOf st n = laneLoad st.heap st.out b + (startOf st n - avVal st.avail b)
            rw [hload b, Nat.add_sub_cancel' hle]
        · rw [(S10 b hb).2 heq, contig_append_single]
          refine ⟨?_, ?_⟩
          · rw [contig_congr st₁.heap st.heap _ (hlaneStable b) 0]
            exact hcontig b
          · show startOf st n = 0 + loadOf st₁.heap (laneT st.out b)
            rw [Nat.zero_add, hloadStable b, ← heq]
            exact (hload b).symm
      · rw [S9 b hb, contig_congr st₁.heap st.heap _ (hlaneStable b) 0]
        exact hcontig b
    have hload₁ : ∀ b, laneLoad st₁.heap st₁.out b = avVal st₁.avail b := by
      intro b
      by_cases hb : b ∈ n.qargs ++ n.cargs
      · have hle := avVal_le_startOf st n b hb
        rw [S7 b, if_pos hb]
        rcases Nat.lt_or_eq_of_le hle with hdef | heq
        · rcases (S10 b hb).1 hdef with ⟨j, _, hlane, hdur⟩
          unfold laneLoad
          rw [hlane, loadOf_append, loadOf_pair, hloadStable b, hdur]
          show laneLoad st.heap st.out b + ((startOf st n - avVal st.avail b) + opDur st₁.heap n) = _
          rw [hload b, S4, ← Nat.add_assoc, Nat.add_sub_cancel' hle]
        · unfold laneLoad
          rw [(S10 b hb).2 heq, loadOf_append, loadOf_single, hloadStable b, S4]
          show laneLoad st.heap st.out b + d = _
          rw [hload b, heq]
      · rw [S7 b, if_neg hb]
        unfold laneLoad
        rw [S9 b hb, hloadStable b]
        exact hload b
    have hkeys₁ : ∀ p ∈ st₁.avail, p.1 ∈ dagBits := by
      intro p hp
      rcases S8 p hp with h | h
      · exact hrn.2.2 p.1 h
      · exact hkeys p h
    obtain ⟨C1, C2, C3, C4, C5, C6⟩ :=
      ih st₁ st' hok hB₁ S5 houtne₁ hcontig₁ hload₁ hkeys₁
        (fun k hk => hrest k (List.mem_cons_of_mem n hk)) hcopy.2
    refine ⟨C1, C2, C3, C4, C5, ?_⟩
    intro i hiB
    have hfront : (opAt st₁.heap i).name = (opAt st.heap i).name
        ∧ (opAt st₁.heap i).isDelay = (opAt st.heap i).isDelay := by
      by_cases hin : i = n.opId
      · subst hin
        rw [S3]
        exact ⟨rfl, rfl⟩
      · rw [S2 i (Nat.lt_of_lt_of_le hiB hB) hin]
        exact ⟨rfl, rfl⟩
    exact ⟨(C6 i hiB).1.trans hfront.1, (C6 i hiB).2.trans hfront.2⟩

/-! ### Run-level properties of `ASAPSchedule.run` -/

/-- Well-formedness of an input circuit: node op references are distinct and
in range, the bits of each node are distinct and belong to the circuit's
wires, and the wire lists are duplicate-free with correct qubit/clbit kinds.
These hold for every `DAGCircuit` by construction. -/
def wfInput (heap : List Op) (dag : DAG) : Prop :=
  (dag.nodes.map (fun n => n.opId)).Nodup ∧
  (∀ n ∈ dag.nodes, n.opId < heap.length ∧ (n.qargs ++ n.cargs).Nodup ∧
    ∀ b ∈ n.qargs ++ n.cargs, b ∈ dag.qubits ++ dag.clbits) ∧
  dag.qubits.Nodup ∧ dag.clbits.Nodup ∧
  (∀ b ∈ dag.qubits, b.isQubit = true) ∧ (∀ b ∈ dag.clbits, b.isQubit = false)

instance (heap : List Op) (dag : DAG) : Decidable (wfInput heap dag) := by
  unfold wfInput; infer_instance

theorem asapSchedule_ok_spec (dur : Op → List Bit → String → Option Nat)
    (heap : List Op) (dag : DAG) (unit : String) (h' : List Op) (nd : DAG)
    (out : List (Node × Nat)) (hwf : wfInput heap dag)
    (hok : asapSchedule dur heap dag unit = .ok (h', nd, out)) :
    nd.nodes = out.map Prod.fst ∧ nd.qubits = dag.qubits ∧ nd.clbits = dag.clbits ∧
    dag.qubits ++ dag.clbits ≠ [] ∧
    (∃ D, nd.duration = some D ∧
      ∀ b ∈ dag.qubits ++ dag.clbits, laneLoad h' out b = D) ∧
    (∀ b, contigFromB h' 0 (laneT out b) = true) ∧
    (∀ i, i < heap.length → (opAt h' i).name = (opAt heap i).name
      ∧ (opAt h' i).isDelay = (opAt heap i).isDelay) := by
  obtain ⟨hwf1, hwf2, hwfq, hwfc, hwfqk, hwfck⟩ := hwf
  unfold asapSchedule at hok
  by_cases hq : dag.qregs.length = 1 ∧ ("q") ∈ dag.qregs
  swap
  · rw [if_neg hq] at hok
    exact absurd hok (by simp)
  rw [if_pos hq] at hok
  split at hok
  · exact absurd hok (by simp)
  next st hsl =>
  by_cases hkeys : st.avail.map Prod.fst = []
  · rw [if_pos hkeys] at hok
    exact absurd hok (by simp)
  rw [if_neg hkeys] at hok
  simp only [Except.ok.injEq, Prod.mk.injEq] at hok
  obtain ⟨hokh, hoknd, hokout⟩ := hok
  obtain ⟨L1, L2, L3, L4, L5, L6⟩ :=
    schedLoop_inv dur unit heap.length (dag.qubits ++ dag.clbits) dag.nodes
      { heap := heap, out := [], avail := [] } st hsl (le_refl _)
      (by intro p hp; cases hp) (by intro p hp; cases hp)
      (by intro b; rfl) (by intro b; rfl) (by intro p hp; cases hp)
      hwf2 hwf1
  -- notation for the two closing padding calls
  have hdisj : ∀ b, b ∈ dag.qubits → b ∉ dag.clbits := by
    intro b hb hc
    have h1 := hwfqk b hb
    have h2 := hwfck b hc
    rw [h1] at h2
    exact Bool.noConfusion h2
  have hdisj' : ∀ b, b ∈ dag.clbits → b ∉ dag.qubits := by
    intro b hb hc
    exact hdisj b hc hb
  set D := listMax ((st.avail.map Prod.fst).map (avVal st.avail)) with hD
  set pr1 := padWithDelays st.avail D unit dag.qubits st.heap st.out with hpr1
  set pr2 := padWithDelays st.avail D unit dag.clbits pr1.1 pr1.2 with hpr2
  have hpr1ids : ∀ p ∈ pr1.2, p.1.opId < pr1.1.length :=
    padWD_outIds st.avail D unit dag.qubits st.heap st.out L2
  have hpr2ids : ∀ p ∈ pr2.2, p.1.opId < pr2.1.length :=
    padWD_outIds st.avail D unit dag.clbits pr1.1 pr1.2 hpr1ids
  have hlen1 : st.heap.length ≤ pr1.1.length :=
    padWD_len st.avail D unit dag.qubits st.heap st.out
  have hlen2 : pr1.1.length ≤ pr2.1.length :=
    padWD_len st.avail D unit dag.clbits pr1.1 pr1.2
  have hfr1 : ∀ i, i < st.heap.length → opAt pr1.1 i = opAt st.heap i :=
    fun i hi => padWD_front st.avail D unit dag.qubits st.heap st.out i hi
  have hfr2 : ∀ i, i < pr1.1.length → opAt pr2.1 i = opAt pr1.1 i :=
    fun i hi => padWD_front st.avail D unit dag.clbits pr1.1 pr1.2 i hi
  have hstable : ∀ p ∈ st.out, opDur pr2.1 p.1 = opDur st.heap p.1 := by
    intro p hp
    unfold opDur
    rw [hfr2 p.1.opId (Nat.lt_of_lt_of_le (L2 p hp) hlen1), hfr1 p.1.opId (L2 p hp)]
  have hlaneStable : ∀ b, ∀ p ∈ laneT st.out b, opDur pr2.1 p.1 = opDur st.heap p.1 :=
    fun b p hp => hstable p (laneT_mem_sub hp)
  have hvle : ∀ b, avVal st.avail b ≤ D := fun b => avVal_le_keysMax st.avail b
  -- lane description after both padding calls
  have hlane : ∀ b ∈ dag.qubits ++ dag.clbits,
      (laneT pr2.2 b = laneT st.out b ∧ avVal st.avail b = D) ∨
      (∃ j, j < pr2.1.length ∧
        laneT pr2.2 b = laneT st.out b ++ [(padNode j b, avVal st.avail b)] ∧
        opDur pr2.1 (padNode j b) = D - avVal st.avail b ∧
        avVal st.avail b < D) := by
    intro b hb
    rcases Nat.lt_or_eq_of_le (hvle b) with hlt | heqD
    · right
      rcases List.mem_append.mp hb with hbq | hbc
      · rcases padWD_lane_hit st.avail D unit dag.qubits st.heap st.out b hwfq hbq hlt
          with ⟨j, hj1, hj2, hj3⟩
        have hpadmem : (padNode j b, avVal st.avail b) ∈ pr1.2 := by
          have : (padNode j b, avVal st.avail b) ∈ laneT pr1.2 b := by
            rw [hj2]
            exact List.mem_append.mpr (Or.inr (List.mem_singleton.mpr rfl))
          exact laneT_mem_sub this
        have hjlt : j < pr1.1.length := hpr1ids _ hpadmem
        refine ⟨j, Nat.lt_of_lt_of_le hjlt hlen2, ?_, ?_, hlt⟩
        · rw [padWD_lane_notin st.avail D unit dag.clbits pr1.1 pr1.2 b (hdisj b hbq), hj2]
        · unfold opDur
          show ((opAt pr2.1 j).duration).getD 0 = _
          rw [hfr2 j hjlt, hj3]
          rfl
      · rcases padWD_lane_hit st.avail D unit dag.clbits pr1.1 pr1.2 b hwfc hbc hlt
          with ⟨j, hj1, hj2, hj3⟩
        have hpadmem : (padNode j b, avVal st.avail b) ∈ pr2.2 := by
          have : (padNode j b, avVal st.avail b) ∈ laneT pr2.2 b := by
            rw [hj2]
            exact List.mem_append.mpr (Or.inr (List.mem_singleton.mpr rfl))
          exact laneT_mem_sub this
        have hjlt : j < pr2.1.length := hpr2ids _ hpadmem
        refine ⟨j, hjlt, ?_, ?_, hlt⟩
        · rw [hj2, padWD_lane_notin st.avail D unit dag.qubits st.heap st.out b
            (hdisj' b hbc)]
        · unfold opDur
          show ((opAt pr2.1 j).duration).getD 0 = _
          rw [hj3]
          rfl
    · left
      have hnlt : ¬ avVal st.avail b < D := by rw [heqD]; exact Nat.lt_irrefl _
      refine ⟨?_, heqD⟩
      rw [padWD_lane_nohit st.avail D unit dag.clbits pr1.1 pr1.2 b hnlt,
        padWD_lane_nohit st.avail D unit dag.qubits st.heap st.out b hnlt]
  subst hokh hoknd hokout
  refine ⟨rfl, rfl, rfl, ?_, ?_, ?_, ?_⟩
  · -- some wire exists, because the availability map is non-empty
    cases hav : st.avail with
    | nil => exact absurd (by rw [hav]; rfl) hkeys
    | cons p rest =>
      intro hcontra
      have : p.1 ∈ dag.qubits ++ dag.clbits := L5 p (by rw [hav]; exact List.mem_cons_self p rest)
      rw [hcontra] at this
      cases this
  · refine ⟨D, rfl, ?_⟩
    intro b hb
    rcases hlane b hb with ⟨hl, hev⟩ | ⟨j, _, hl, hdur, _⟩
    · unfold laneLoad
      rw [hl, loadOf_congr pr2.1 st.heap _ (hlaneStable b)]
      show laneLoad st.heap st.out b = D
      rw [L4 b, hev]
    · unfold laneLoad
      rw [hl, loadOf_append, loadOf_single, loadOf_congr pr2.1 st.heap _ (hlaneStable b),
        hdur]
      show laneLoad st.heap st.out b + (D - avVal st.avail b) = D
      rw [L4 b, Nat.add_sub_cancel' (hvle b)]
  · intro b
    by_cases hb : b ∈ dag.qubits ++ dag.clbits
    · rcases hlane b hb with ⟨hl, _⟩ | ⟨j, _, hl, hdur, _⟩
      · rw [hl, contig_congr pr2.1 st.heap _ (hlaneStable b) 0]
        exact L3 b
      · rw [hl, contig_append_single]
        refine ⟨?_, ?_⟩
        · rw [contig_congr pr2.1 st.heap _ (hlaneStable b) 0]
          exact L3 b
        · show avVal st.avail b = 0 + loadOf pr2.1 (laneT st.out b)
          rw [Nat.zero_add, loadOf_congr pr2.1 st.heap _ (hlaneStable b)]
          exact (L4 b).symm
    · have hnq : b ∉ dag.qubits := fun hh => hb (List.mem_append.mpr (Or.inl hh))
      have hnc : b ∉ dag.clbits := fun hh => hb (List.mem_append.mpr (Or.inr hh))
      rw [padWD_lane_notin st.avail D unit dag.clbits pr1.1 pr1.2 b hnc,
        padWD_lane_notin st.avail D unit dag.qubits st.heap st.out b hnq,
        contig_congr pr2.1 st.heap _ (hlaneStable b) 0]
      exact L3 b
  · intro i hi
    have hi1 : i < st.heap.length := Nat.lt_of_lt_of_le hi L1
    have : opAt pr2.1 i = opAt st.heap i := by
      rw [hfr2 i (Nat.lt_of_lt_of_le hi1 hlen1), hfr1 i hi1]
    rw [this]
    exact L6 i hi

/-! ### Concrete fixtures used by witnesses and counterexamples -/

def bq0 : Bit := ⟨true, 0⟩
def bq1 : Bit := ⟨true, 1⟩
def bc0 : Bit := ⟨false, 0⟩

def gateOp (nm : String) : Op := ⟨nm, false, none, none⟩

def okState : Except String SState → SState
  | .ok st => st
  | .error _ => ⟨[], [], []⟩

def okSched : Except String (List Op × DAG × List (Node × Nat)) →
    List Op × DAG × List (Node × Nat)
  | .ok r => r
  | .error _ => ([], ⟨[], [], [], [], [], "", none, none⟩, [])

def okRem : Except String DAG → DAG
  | .ok d => d
  | .error _ => ⟨[], [], [], [], [], "", none, none⟩

def cDur8 : Op → List Bit → String → Option Nat := fun _ _ _ => some 4

def cHeap8 : List Op := [gateOp ("x")]

def cDag8 : DAG := ⟨["q"], [], [bq0], [], [⟨0, [bq0], [], none⟩], "c", none, none⟩

def cSt1 : SState := ⟨[gateOp ("cx")], [], [(bq0, 5)]⟩

def cN1 : Node := ⟨0, [bq0, bq1], [], none⟩

def cDur1 : Op → List Bit → String → Option Nat := fun _ _ _ => some 3

def cDag9 : DAG := ⟨["q"], [], [bq0], [], [], "e", none, none⟩

/-! ### Claims about the ASAP scheduler -/

/-- Claim C1: for every operation processed by the scheduler, the start time
is `startOf` — the maximum current availability over the touched wires (each
touched wire's availability is at most it) — and every touched wire strictly
below it receives exactly one single-wire padding delay of duration
`start - availability`, placed immediately before the operation on that wire
only; a touched wire already at the start time receives no padding, and
untouched wires are untouched. -/
theorem asap_padding_per_op (dur : Op → List Bit → String → Option Nat)
    (unit : String) (st : SState) (n : Node) (st₁ : SState)
    (hok : asapStep dur unit st n = .ok st₁)
    (hid : n.opId < st.heap.length)
    (hnd : (n.qargs ++ n.cargs).Nodup)
    (houtid : ∀ p ∈ st.out, p.1.opId < st.heap.length) :
    (∀ b ∈ n.qargs ++ n.cargs, avVal st.avail b ≤ startOf st n) ∧
    (∀ b ∈ n.qargs ++ n.cargs,
      (avVal st.avail b < startOf st n →
        ∃ j, laneT st₁.out b = laneT st.out b
            ++ [(padNode j b, avVal st.avail b), (n, startOf st n)] ∧
          opDur st₁.heap (padNode j b) = startOf st n - avVal st.avail b) ∧
      (avVal st.avail b = startOf st n →
        laneT st₁.out b = laneT st.out b ++ [(n, startOf st n)])) ∧
    (∀ b, b ∉ n.qargs ++ n.cargs → laneT st₁.out b = laneT st.out b) := by
  obtain ⟨d, _, _, _, _, _, _, _, _, S9, S10⟩ :=
    asapStep_spec dur unit st n st₁ hok hid hnd houtid
  refine ⟨fun b hb => avVal_le_startOf st n b hb, ?_, S9⟩
  intro b hb
  refine ⟨?_, (S10 b hb).2⟩
  intro hdef
  rcases (S10 b hb).1 hdef with ⟨j, _, hl, hd⟩
  exact ⟨j, hl, hd⟩

/-- Witness for C1 at a concrete step: a two-qubit gate whose first qubit is
available at 5 and second at 0 starts at 5, and the second wire gets one
padding delay of duration 5 right before it. -/
theorem asap_padding_per_op_witness :
    (∀ b ∈ cN1.qargs ++ cN1.cargs, avVal cSt1.avail b ≤ startOf cSt1 cN1) ∧
    (∀ b ∈ cN1.qargs ++ cN1.cargs,
      (avVal cSt1.avail b < startOf cSt1 cN1 →
        ∃ j, laneT (okState (asapStep cDur1 ("dt") cSt1 cN1)).out b
            = laneT cSt1.out b
              ++ [(padNode j b, avVal cSt1.avail b), (cN1, startOf cSt1 cN1)] ∧
          opDur (okState (asapStep cDur1 ("dt") cSt1 cN1)).heap (padNode j b)
            = startOf cSt1 cN1 - avVal cSt1.avail b) ∧
      (avVal cSt1.avail b = startOf cSt1 cN1 →
        laneT (okState (asapStep cDur1 ("dt") cSt1 cN1)).out b
          = laneT cSt1.out b ++ [(cN1, startOf cSt1 cN1)])) ∧
    (∀ b, b ∉ cN1.qargs ++ cN1.cargs →
      laneT (okState (asapStep cDur1 ("dt") cSt1 cN1)).out b = laneT cSt1.out b) :=
  asap_padding_per_op cDur1 ("dt") cSt1 cN1
    (okState (asapStep cDur1 ("dt") cSt1 cN1)) (by rfl) (by decide) (by decide)
    (by intro p hp; cases hp)

/-- Claim C2: a scheduled graph records `total_duration = some D` where every
wire of the graph is filled up to exactly `D`, so `D` is also the maximum over
the wires of the wire's total occupied time (= its last operation's end time,
by contiguity). -/
theorem asap_total_duration (dur : Op → List Bit → String → Option Nat)
    (heap : List Op) (dag : DAG) (unit : String) (h' : List Op) (nd : DAG)
    (out : List (Node × Nat)) (hwf : wfInput heap dag)
    (hok : asapSchedule dur heap dag unit = .ok (h', nd, out)) :
    ∃ D, nd.duration = some D ∧
      (∀ b ∈ nd.qubits ++ nd.clbits, laneLoadD h' nd.nodes b = D) ∧
      listMax ((nd.qubits ++ nd.clbits).map (laneLoadD h' nd.nodes)) = D := by
  obtain ⟨hnodes, hqb, hcb, hne, ⟨D, hdur, hloads⟩, _, _⟩ :=
    asapSchedule_ok_spec dur heap dag unit h' nd out hwf hok
  have hload' : ∀ b ∈ nd.qubits ++ nd.clbits, laneLoadD h' nd.nodes b = D := by
    intro b hb
    rw [hnodes, laneLoadD_of_out]
    exact hloads b (by rw [← hqb, ← hcb]; exact hb)
  refine ⟨D, hdur, hload', ?_⟩
  apply listMax_all_eq
  · intro hcontra
    rw [List.map_eq_nil_iff] at hcontra
    rw [hqb, hcb] at hcontra
    exact hne hcontra
  · intro x hx
    rcases List.mem_map.mp hx with ⟨b, hb, hbx⟩
    rw [← hbx]
    exact hload' b hb

/-- Witness for C2: the one-gate circuit schedules with total duration 4 and
its only wire carries exactly duration 4. -/
theorem asap_total_duration_witness :
    ∃ D, (okSched (asapSchedule cDur8 cHeap8 cDag8 ("dt"))).2.1.duration = some D ∧
      (∀ b ∈ (okSched (asapSchedule cDur8 cHeap8 cDag8 ("dt"))).2.1.qubits
          ++ (okSched (asapSchedule cDur8 cHeap8 cDag8 ("dt"))).2.1.clbits,
        laneLoadD (okSched (asapSchedule cDur8 cHeap8 cDag8 ("dt"))).1
          (okSched (asapSchedule cDur8 cHeap8 cDag8 ("dt"))).2.1.nodes b = D) ∧
      listMax (((okSched (asapSchedule cDur8 cHeap8 cDag8 ("dt"))).2.1.qubits
          ++ (okSched (asapSchedule cDur8 cHeap8 cDag8 ("dt"))).2.1.clbits).map
        (laneLoadD (okSched (asapSchedule cDur8 cHeap8 cDag8 ("dt"))).1
          (okSched (asapSchedule cDur8 cHeap8 cDag8 ("dt"))).2.1.nodes)) = D :=
  asap_total_duration cDur8 cHeap8 cDag8 ("dt")
    (okSched (asapSchedule cDur8 cHeap8 cDag8 ("dt"))).1
    (okSched (asapSchedule cDur8 cHeap8 cDag8 ("dt"))).2.1
    (okSched (asapSchedule cDur8 cHeap8 cDag8 ("dt"))).2.2
    (by decide) (by rfl)

/-- Claim C3: in a scheduled graph, every wire's operations (in graph order,
which is start-time order) are contiguous and non-overlapping: each starts
where the previous ends, the first at time 0. -/
theorem asap_lane_contiguity (dur : Op → List Bit → String → Option Nat)
    (heap : List Op) (dag : DAG) (unit : String) (h' : List Op) (nd : DAG)
    (out : List (Node × Nat)) (hwf : wfInput heap dag)
    (hok : asapSchedule dur heap dag unit = .ok (h', nd, out)) :
    nd.nodes = out.map Prod.fst ∧
    ∀ b, contigFromB h' 0 (laneT out b) = true := by
  obtain ⟨hnodes, _, _, _, _, hcontig, _⟩ :=
    asapSchedule_ok_spec dur heap dag unit h' nd out hwf hok
  exact ⟨hnodes, hcontig⟩

/-- Witness for C3 on the one-gate circuit. -/
theorem asap_lane_contiguity_witness :
    (okSched (asapSchedule cDur8 cHeap8 cDag8 ("dt"))).2.1.nodes
      = (okSched (asapSchedule cDur8 cHeap8 cDag8 ("dt"))).2.2.map Prod.fst ∧
    ∀ b, contigFromB (okSched (asapSchedule cDur8 cHeap8 cDag8 ("dt"))).1 0
      (laneT (okSched (asapSchedule cDur8 cHeap8 cDag8 ("dt"))).2.2 b) = true :=
  asap_lane_contiguity cDur8 cHeap8 cDag8 ("dt")
    (okSched (asapSchedule cDur8 cHeap8 cDag8 ("dt"))).1
    (okSched (asapSchedule cDur8 cHeap8 cDag8 ("dt"))).2.1
    (okSched (asapSchedule cDur8 cHeap8 cDag8 ("dt"))).2.2
    (by decide) (by rfl)

/-- Claim C8, counterexample: the scheduler mutates the duration attribute of
an op object shared with the input graph.  Input node 0 references heap op 0,
whose duration is `none` before the run and `some 4` afterwards, so the input
graph's operation data is not left intact. -/
theorem asap_mutates_input_op :
    asapSchedule cDur8 cHeap8 cDag8 ("dt")
      = .ok (okSched (asapSchedule cDur8 cHeap8 cDag8 ("dt"))) ∧
    (opAt cHeap8 0).duration = none ∧
    (opAt (okSched (asapSchedule cDur8 cHeap8 cDag8 ("dt"))).1 0).duration = some 4 :=
  ⟨by rfl, by rfl, by rfl⟩

/-- Claim C8, amended: the scheduler builds a fresh output graph and leaves
every pre-existing op object's identity (payload name, delay-kind) intact;
only the `duration` and `unit` attributes of ops referenced by processed input
nodes are overwritten (as the counterexample shows). -/
theorem asap_mutates_only_timing (dur : Op → List Bit → String → Option Nat)
    (heap : List Op) (dag : DAG) (unit : String) (h' : List Op) (nd : DAG)
    (out : List (Node × Nat)) (hwf : wfInput heap dag)
    (hok : asapSchedule dur heap dag unit = .ok (h', nd, out)) :
    ∀ i, i < heap.length → (opAt h' i).name = (opAt heap i).name
      ∧ (opAt h' i).isDelay = (opAt heap i).isDelay := by
  obtain ⟨_, _, _, _, _, _, hnames⟩ :=
    asapSchedule_ok_spec dur heap dag unit h' nd out hwf hok
  exact hnames

/-- Witness for the amended C8. -/
theorem asap_mutates_only_timing_witness :
    (opAt (okSched (asapSchedule cDur8 cHeap8 cDag8 ("dt"))).1 0).name
      = (opAt cHeap8 0).name ∧
    (opAt (okSched (asapSchedule cDur8 cHeap8 cDag8 ("dt"))).1 0).isDelay
      = (opAt cHeap8 0).isDelay :=
  asap_mutates_only_timing cDur8 cHeap8 cDag8 ("dt")
    (okSched (asapSchedule cDur8 cHeap8 cDag8 ("dt"))).1
    (okSched (asapSchedule cDur8 cHeap8 cDag8 ("dt"))).2.1
    (okSched (asapSchedule cDur8 cHeap8 cDag8 ("dt"))).2.2
    (by decide) (by rfl) 0 (by decide)

/-- Claim C9: a graph that passes the precondition but has no operation nodes
makes the closing `max` run over an empty collection, so the pass fails with
an error rather than returning a schedule with duration 0. -/
theorem asap_empty_circuit_errors (dur : Op → List Bit → String → Option Nat)
    (heap : List Op) (dag : DAG) (unit : String)
    (h1 : dag.nodes = []) (h2 : dag.qregs.length = 1) (h3 : ("q") ∈ dag.qregs) :
    asapSchedule dur heap dag unit = .error ("max() arg is an empty sequence") := by
  unfold asapSchedule
  rw [if_pos ⟨h2, h3⟩, h1]
  rfl

/-- Witness for C9 on a one-qubit, zero-operation circuit. -/
theorem asap_empty_circuit_errors_witness :
    asapSchedule cDur8 cHeap8 cDag9 ("dt")
      = .error ("max() arg is an empty sequence") :=
  asap_empty_circuit_errors cDur8 cHeap8 cDag9 ("dt") (by rfl) (by rfl) (by decide)

/-! ### Behaviour of `RemoveDelaysOnIdleQubits.run` -/

/-- Delay instructions act on exactly one wire (in qiskit, `Delay` is a
single-bit instruction; the scheduler's padding is constructed that way). -/
def singleLaneDelays (heap : List Op) (ns : List Node) : Prop :=
  ∀ n ∈ ns, (opAt heap n.opId).isDelay = true →
    ∀ a ∈ n.qargs ++ n.cargs, ∀ b ∈ n.qargs ++ n.cargs, a = b

instance (heap : List Op) (ns : List Node) : Decidable (singleLaneDelays heap ns) := by
  unfold singleLaneDelays; infer_instance

theorem onWire_mem_bits {q : Bit} {n : Node} (h : onWire q n) :
    q ∈ n.qargs ++ n.cargs := List.mem_append.mpr h

theorem sl_unique_wire {heap : List Op} {ns : List Node} {n : Node} {q b : Bit}
    (hsl : singleLaneDelays heap ns) (hn : n ∈ ns)
    (hdel : (opAt heap n.opId).isDelay = true)
    (hq : onWire q n) (hb : onWire b n) : q = b :=
  hsl n hn hdel q (onWire_mem_bits hq) b (onWire_mem_bits hb)

theorem laneN_filter_comm (ns : List Node) (b : Bit) (p : Node → Bool) :
    laneN (ns.filter p) b = (laneN ns b).filter p := by
  unfold laneN
  rw [List.filter_filter, List.filter_filter]
  congr 1
  funext n
  rw [Bool.and_comm]

theorem laneN_sublist {ns₁ ns₂ : List Node} (h : List.Sublist ns₁ ns₂) (b : Bit) :
    List.Sublist (laneN ns₁ b) (laneN ns₂ b) := List.Sublist.filter _ h

theorem laneN_mem_sub {ns : List Node} {b : Bit} {n : Node} (h : n ∈ laneN ns b) :
    n ∈ ns := List.mem_of_mem_filter h

theorem laneN_mem_wire {ns : List Node} {b : Bit} {n : Node} (h : n ∈ laneN ns b) :
    onWire b n := by
  have := List.of_mem_filter h
  exact of_decide_eq_true this

theorem mem_laneN {ns : List Node} {b : Bit} {n : Node} (h1 : n ∈ ns)
    (h2 : onWire b n) : n ∈ laneN ns b :=
  List.mem_filter.mpr ⟨h1, decide_eq_true h2⟩

theorem laneN_filter_not_onWire (heap : List Op) (ns : List Node) (q b : Bit)
    (hqb : q ≠ b) (hsl : singleLaneDelays heap ns)
    (hidl : ∀ n ∈ laneN ns q, (opAt heap n.opId).isDelay = true) :
    laneN (ns.filter (fun n => !(decide (onWire q n)))) b = laneN ns b := by
  rw [laneN_filter_comm]
  apply List.filter_eq_self.mpr
  intro n hn
  have hnb : onWire b n := laneN_mem_wire hn
  have hns : n ∈ ns := laneN_mem_sub hn
  by_cases hw : onWire q n
  · have hdel := hidl n (mem_laneN hns hw)
    exact absurd (sl_unique_wire hsl hns hdel hw hnb) hqb
  · simp [hw]

theorem laneN_filter_self_empty (ns : List Node) (q : Bit) :
    laneN (ns.filter (fun n => !(decide (onWire q n)))) q = [] := by
  rw [laneN_filter_comm]
  apply List.filter_eq_nil_iff.mpr
  intro n hn
  have := laneN_mem_wire hn
  simp [this]

theorem filter_id_of_lane_empty (ns : List Node) (q : Bit)
    (h : laneN ns q = []) :
    ns.filter (fun n => !(decide (onWire q n))) = ns := by
  apply List.filter_eq_self.mpr
  intro n hn
  by_cases hw : onWire q n
  · exact absurd (mem_laneN hn hw) (by rw [h]; exact List.not_mem_nil n)
  · simp [hw]

theorem sl_filter {heap : List Op} {ns : List Node} (p : Node → Bool)
    (hsl : singleLaneDelays heap ns) : singleLaneDelays heap (ns.filter p) :=
  fun n hn => hsl n (List.mem_of_mem_filter hn)

theorem remFold_sub (heap : List Op) :
    ∀ (qs : List Bit) (d : DAG) (r : Bool),
      List.Sublist (remFold heap qs (d, r)).1.nodes d.nodes := by
  intro qs
  induction qs with
  | nil => intro d r; exact List.Sublist.refl _
  | cons q qs ih =>
    intro d r
    unfold remFold remStep
    by_cases hidl : (laneN d.nodes q).all (fun n => (opAt heap n.opId).isDelay) = true
    · rw [if_pos hidl]
      exact List.Sublist.trans (ih _ _) (List.filter_sublist _)
    · rw [if_neg hidl]
      exact ih d r

theorem remFold_shape (heap : List Op) :
    ∀ (qs : List Bit) (d : DAG) (r : Bool),
      ∃ ns fl, remFold heap qs (d, r) = ({ d with nodes := ns }, fl) := by
  intro qs
  induction qs with
  | nil =>
    intro d r
    exact ⟨d.nodes, r, rfl⟩
  | cons q qs ih =>
    intro d r
    unfold remFold remStep
    by_cases hidl : (laneN d.nodes q).all (fun n => (opAt heap n.opId).isDelay) = true
    · rw [if_pos hidl]
      rcases ih { d with nodes := d.nodes.filter (fun n => !(decide (onWire q n))) } true
        with ⟨ns, fl, heq⟩
      exact ⟨ns, fl, heq⟩
    · rw [if_neg hidl]
      exact ih d r

theorem remFold_keep_nondelay (heap : List Op) :
    ∀ (qs : List Bit) (d : DAG) (r : Bool) (n : Node),
      n ∈ d.nodes → (opAt heap n.opId).isDelay = false →
      n ∈ (remFold heap qs (d, r)).1.nodes := by
  intro qs
  induction qs with
  | nil => intro d r n hn _; exact hn
  | cons q qs ih =>
    intro d r n hn hnd
    unfold remFold remStep
    by_cases hidl : (laneN d.nodes q).all (fun n => (opAt heap n.opId).isDelay) = true
    · rw [if_pos hidl]
      apply ih
      · apply List.mem_filter.mpr
        refine ⟨hn, ?_⟩
        by_cases hw : onWire q n
        · have := List.all_eq_true.mp hidl n (mem_laneN hn hw)
          rw [hnd] at this
          exact Bool.noConfusion this
        · simp [hw]
      · exact hnd
    · rw [if_neg hidl]
      exact ih d r n hn hnd

theorem remFold_lane_notin (heap : List Op) :
    ∀ (qs : List Bit) (d : DAG) (r : Bool) (b : Bit),
      singleLaneDelays heap d.nodes → b ∉ qs →
      laneN (remFold heap qs (d, r)).1.nodes b = laneN d.nodes b := by
  intro qs
  induction qs with
  | nil => intro d r b _ _; rfl
  | cons q qs ih =>
    intro d r b hsl hb
    have hqb : q ≠ b := fun hh => hb (hh ▸ List.mem_cons_self q qs)
    have hbqs : b ∉ qs := fun hh => hb (List.mem_cons_of_mem q hh)
    unfold remFold remStep
    by_cases hidl : (laneN d.nodes q).all (fun n => (opAt heap n.opId).isDelay) = true
    · rw [if_pos hidl]
      rw [ih _ _ b (sl_filter _ hsl) hbqs]
      exact laneN_filter_not_onWire heap d.nodes q b hqb hsl (List.all_eq_true.mp hidl)
    · rw [if_neg hidl]
      exact ih d r b hsl hbqs

theorem remFold_lane_nonidle (heap : List Op) :
    ∀ (qs : List Bit) (d : DAG) (r : Bool) (b : Bit) (g : Node),
      singleLaneDelays heap d.nodes →
      g ∈ laneN d.nodes b → (opAt heap g.opId).isDelay = false →
      laneN (remFold heap qs (d, r)).1.nodes b = laneN d.nodes b := by
  intro qs
  induction qs with
  | nil => intro d r b g _ _ _; rfl
  | cons q qs ih =>
    intro d r b g hsl hg hgd
    unfold remFold remStep
    by_cases hidl : (laneN d.nodes q).all (fun n => (opAt heap n.opId).isDelay) = true
    · rw [if_pos hidl]
      have hqb : q ≠ b := by
        intro hh
        subst hh
        have := List.all_eq_true.mp hidl g hg
        rw [hgd] at this
        exact Bool.noConfusion this
      have hlane := laneN_filter_not_onWire heap d.nodes q b hqb hsl
        (List.all_eq_true.mp hidl)
      rw [ih _ _ b g (sl_filter _ hsl) (by rw [hlane]; exact hg) hgd]
      exact hlane
    · rw [if_neg hidl]
      exact ih d r b g hsl hg hgd

theorem remFold_lane_idle_empty (heap : List Op) :
    ∀ (qs : List Bit) (d : DAG) (r : Bool) (b : Bit),
      singleLaneDelays heap d.nodes → b ∈ qs →
      (∀ n ∈ laneN d.nodes b, (opAt heap n.opId).isDelay = true) →
      laneN (remFold heap qs (d, r)).1.nodes b = [] := by
  intro qs
  induction qs with
  | nil => intro d r b _ hb _; cases hb
  | cons q qs ih =>
    intro d r b hsl hb hall
    by_cases hqb : q = b
    · subst hqb
      unfold remFold remStep
      rw [if_pos (List.all_eq_true.mpr hall)]
      have hempty : laneN (d.nodes.filter (fun n => !(decide (onWire q n)))) q = [] :=
        laneN_filter_self_empty d.nodes q
      have hsub := laneN_sublist (remFold_sub heap qs ({ d with nodes := d.nodes.filter (fun n => !(decide (onWire q n))) }) true) q
      rw [hempty] at hsub
      exact List.sublist_nil.mp hsub
    · have hbqs : b ∈ qs := by
        rcases List.mem_cons.mp hb with h | h
        · exact absurd h.symm hqb
        · exact h
      unfold remFold remStep
      by_cases hidl : (laneN d.nodes q).all (fun n => (opAt heap n.opId).isDelay) = true
      · rw [if_pos hidl]
        have hlane := laneN_filter_not_onWire heap d.nodes q b hqb hsl
          (List.all_eq_true.mp hidl)
        apply ih _ _ b (sl_filter _ hsl) hbqs
        rw [hlane]
        exact hall
      · rw [if_neg hidl]
        exact ih d r b hsl hbqs hall

theorem remFold_flag_mono (heap : List Op) :
    ∀ (qs : List Bit) (d : DAG), (remFold heap qs (d, true)).2 = true := by
  intro qs
  induction qs with
  | nil => intro d; rfl
  | cons q qs ih =>
    intro d
    unfold remFold remStep
    by_cases hidl : (laneN d.nodes q).all (fun n => (opAt heap n.opId).isDelay) = true
    · rw [if_pos hidl]; exact ih _
    · rw [if_neg hidl]; exact ih d

theorem remFold_false_id (heap : List Op) :
    ∀ (qs : List Bit) (d : DAG),
      (remFold heap qs (d, false)).2 = false → (remFold heap qs (d, false)).1 = d := by
  intro qs
  induction qs with
  | nil => intro d _; rfl
  | cons q qs ih =>
    intro d hfl
    unfold remFold remStep
    by_cases hidl : (laneN d.nodes q).all (fun n => (opAt heap n.opId).isDelay) = true
    · exfalso
      unfold remFold remStep at hfl
      rw [if_pos hidl] at hfl
      rw [remFold_flag_mono heap qs _] at hfl
      exact Bool.noConfusion hfl
    · rw [if_neg hidl]
      unfold remFold remStep at hfl
      rw [if_neg hidl] at hfl
      exact ih d hfl

theorem remFold_post (heap : List Op) :
    ∀ (qs : List Bit) (d : DAG) (r : Bool), ∀ q ∈ qs,
      laneN (remFold heap qs (d, r)).1.nodes q = [] ∨
      ∃ g ∈ laneN (remFold heap qs (d, r)).1.nodes q,
        (opAt heap g.opId).isDelay = false := by
  intro qs
  induction qs with
  | nil => intro d r q hq; cases hq
  | cons q₀ qs ih =>
    intro d r q hq
    by_cases hqq : q = q₀
    · subst hqq
      unfold remFold remStep
      by_cases hidl : (laneN d.nodes q).all (fun n => (opAt heap n.opId).isDelay) = true
      · rw [if_pos hidl]
        left
        have hempty : laneN (d.nodes.filter (fun n => !(decide (onWire q n)))) q = [] :=
          laneN_filter_self_empty d.nodes q
        have hsub := laneN_sublist (remFold_sub heap qs ({ d with nodes := d.nodes.filter (fun n => !(decide (onWire q n))) }) true) q
        rw [hempty] at hsub
        exact List.sublist_nil.mp hsub
      · rw [if_neg hidl]
        right
        rw [List.all_eq_true] at hidl
        push_neg at hidl
        rcases hidl with ⟨g, hg, hgd⟩
        have hgd' : (opAt heap g.opId).isDelay = false := by
          cases hcase : (opAt heap g.opId).isDelay
          · rfl
          · exact absurd (decide_eq_true hcase) (by simpa using hgd)
        refine ⟨g, ?_, hgd'⟩
        apply mem_laneN
        · exact remFold_keep_nondelay heap qs d r g (laneN_mem_sub hg) hgd'
        · exact laneN_mem_wire hg
    · have hqs : q ∈ qs := by
        rcases List.mem_cons.mp hq with h | h
        · exact absurd h hqq
        · exact h
      unfold remFold remStep
      by_cases hidl : (laneN d.nodes q₀).all (fun n => (opAt heap n.opId).isDelay) = true
      · rw [if_pos hidl]
        exact ih _ _ q hqs
      · rw [if_neg hidl]
        exact ih d r q hqs

theorem remFold_noop (heap : List Op) :
    ∀ (qs : List Bit) (d : DAG) (r : Bool),
      (∀ q ∈ qs, laneN d.nodes q = [] ∨
        ∃ g ∈ laneN d.nodes q, (opAt heap g.opId).isDelay = false) →
      remFold heap qs (d, r)
        = (d, r || qs.any (fun q => (laneN d.nodes q).isEmpty)) := by
  intro qs
  induction qs with
  | nil => intro d r _; simp [remFold]
  | cons q qs ih =>
    intro d r hq
    unfold remFold remStep
    rcases hq q (List.mem_cons_self q qs) with hemp | ⟨g, hg, hgd⟩
    · rw [if_pos (by rw [hemp]; rfl)]
      rw [filter_id_of_lane_empty d.nodes q hemp]
      have : ({ d with nodes := d.nodes } : DAG) = d := rfl
      rw [this, ih d true (fun q' hq' => hq q' (List.mem_cons_of_mem q hq'))]
      rw [List.any_cons, hemp]
      show (d, true) = (d, r || (true || qs.any fun q => (laneN d.nodes q).isEmpty))
      rw [Bool.true_or, Bool.or_true]
    · have hidl : ¬ (laneN d.nodes q).all (fun n => (opAt heap n.opId).isDelay) = true := by
        rw [List.all_eq_true]
        push_neg
        exact ⟨g, hg, by simp [hgd]⟩
      rw [if_neg hidl, ih d r (fun q' hq' => hq q' (List.mem_cons_of_mem q hq'))]
      have hne : (laneN d.nodes q).isEmpty = false := by
        cases hcase : laneN d.nodes q with
        | nil => rw [hcase] at hg; cases hg
        | cons x xs => rfl
      rw [List.any_cons, hne, Bool.false_or]

theorem remFold_flag_empty (heap : List Op) :
    ∀ (qs : List Bit) (d : DAG) (r : Bool) (q : Bit),
      q ∈ qs → laneN d.nodes q = [] →
      (remFold heap qs (d, r)).2 = true := by
  intro qs
  induction qs with
  | nil => intro d r q hq _; cases hq
  | cons q₀ qs ih =>
    intro d r q hq hemp
    unfold remFold remStep
    by_cases hqq : q = q₀
    · subst hqq
      rw [if_pos (by rw [hemp]; rfl)]
      exact remFold_flag_mono heap qs _
    · have hqs : q ∈ qs := by
        rcases List.mem_cons.mp hq with h | h
        · exact absurd h hqq
        · exact h
      by_cases hidl : (laneN d.nodes q₀).all (fun n => (opAt heap n.opId).isDelay) = true
      · rw [if_pos hidl]
        apply ih _ _ q hqs
        have hsub := laneN_sublist (List.filter_sublist (l := d.nodes) (p := fun n => !(decide (onWire q₀ n)))) q
        rw [hemp] at hsub
        exact List.sublist_nil.mp hsub
      · rw [if_neg hidl]
        exact ih d r q hqs hemp

theorem foldl_max_swap (f : Bit → Nat) :
    ∀ (l : List Bit) (a : Nat),
      l.foldl (fun acc q => max (f q) acc) a = (l.map f).foldl max a := by
  intro l
  induction l with
  | nil => intro a; rfl
  | cons x xs ih =>
    intro a
    simp only [List.foldl_cons, List.map_cons]
    rw [ih, Nat.max_comm]

/-- The `circuit_duration` recomputation is the maximum over the qubits of the
per-qubit duration sum. -/
theorem recomputeDuration_eq (heap : List Op) (d : DAG) :
    recomputeDuration heap d = listMax (d.qubits.map (fun q => laneLoadD heap d.nodes q)) := by
  unfold recomputeDuration listMax
  rw [foldl_max_swap]

theorem removeDelays_eq_of_scheduled (heap : List Op) (dag : DAG) (t : Nat)
    (hdur : dag.duration = some t) :
    removeDelaysOnIdleQubits heap dag
      = (if (remFold heap dag.qubits (dag, false)).2
         then .ok ({ (remFold heap dag.qubits (dag, false)).1 with
            duration := some (recomputeDuration heap (remFold heap dag.qubits (dag, false)).1) })
         else .ok (remFold heap dag.qubits (dag, false)).1) := by
  unfold removeDelaysOnIdleQubits
  rw [hdur]

/-- Claim C6: the pass fails (with the scheduled-circuits-only error) if and
only if the graph's duration metadata is unset; with a set duration it always
returns a graph. -/
theorem remover_error_iff (heap : List Op) (dag : DAG) :
    (∃ e, removeDelaysOnIdleQubits heap dag = .error e) ↔ dag.duration = none := by
  constructor
  · rintro ⟨e, he⟩
    cases hdur : dag.duration with
    | none => rfl
    | some t =>
      rw [removeDelays_eq_of_scheduled heap dag t hdur] at he
      by_cases hr : (remFold heap dag.qubits (dag, false)).2 = true
      · rw [if_pos hr] at he
        exact absurd he (by simp)
      · rw [if_neg hr] at he
        exact absurd he (by simp)
  · intro h
    unfold removeDelaysOnIdleQubits
    rw [h]
    exact ⟨_, rfl⟩

/-- Claim C4, amended: on every QUANTUM wire, an all-delay (or empty) wire is
left with zero operations and a wire containing a non-delay operation is left
untouched; wires outside `dag.qubits` — in particular every classical wire —
are never modified by the pass (the loop iterates over `dag.qubits` only). -/
theorem remover_lane_behavior (heap : List Op) (dag : DAG) (t : Nat)
    (hdur : dag.duration = some t)
    (hsl : singleLaneDelays heap dag.nodes) :
    ∃ d', removeDelaysOnIdleQubits heap dag = .ok d' ∧
      (∀ q ∈ dag.qubits,
        ((∀ n ∈ laneN dag.nodes q, (opAt heap n.opId).isDelay = true) →
          laneN d'.nodes q = []) ∧
        ((∃ g ∈ laneN dag.nodes q, (opAt heap g.opId).isDelay = false) →
          laneN d'.nodes q = laneN dag.nodes q)) ∧
      (∀ b, b ∉ dag.qubits → laneN d'.nodes b = laneN dag.nodes b) := by
  rw [removeDelays_eq_of_scheduled heap dag t hdur]
  have hprops : ∀ (d' : DAG), d'.nodes = (remFold heap dag.qubits (dag, false)).1.nodes →
      (∀ q ∈ dag.qubits,
        ((∀ n ∈ laneN dag.nodes q, (opAt heap n.opId).isDelay = true) →
          laneN d'.nodes q = []) ∧
        ((∃ g ∈ laneN dag.nodes q, (opAt heap g.opId).isDelay = false) →
          laneN d'.nodes q = laneN dag.nodes q)) ∧
      (∀ b, b ∉ dag.qubits → laneN d'.nodes b = laneN dag.nodes b) := by
    intro d' hnodes
    refine ⟨?_, ?_⟩
    · intro q hq
      refine ⟨?_, ?_⟩
      · intro hall
        rw [hnodes]
        exact remFold_lane_idle_empty heap dag.qubits dag false q hsl hq hall
      · rintro ⟨g, hg, hgd⟩
        rw [hnodes]
        exact remFold_lane_nonidle heap dag.qubits dag false q g hsl hg hgd
    · intro b hb
      rw [hnodes]
      exact remFold_lane_notin heap dag.qubits dag false b hsl hb
  by_cases hr : (remFold heap dag.qubits (dag, false)).2 = true
  · rw [if_pos hr]
    exact ⟨_, rfl, hprops _ rfl⟩
  · rw [if_neg hr]
    exact ⟨_, rfl, hprops _ rfl⟩

def c4Heap : List Op := [gateOp ("x"), ⟨"delay", true, some 5, some ("dt")⟩]

def c4Dag : DAG := ⟨["q"], ["c"], [bq0], [bc0],
  [⟨0, [bq0], [], none⟩, ⟨1, [], [bc0], none⟩], "r", some 5, none⟩

/-- Claim C4, counterexample: a classical wire whose operations are all delays
is NOT cleared — the pass only iterates over quantum wires.  Here the clbit
wire holds a single delay, every operation on it is a delay, and the pass
returns the graph unchanged with that wire still non-empty. -/
theorem remover_ignores_classical :
    removeDelaysOnIdleQubits c4Heap c4Dag = .ok c4Dag ∧
    (∀ n ∈ laneN c4Dag.nodes bc0, (opAt c4Heap n.opId).isDelay = true) ∧
    laneN c4Dag.nodes bc0 ≠ [] :=
  ⟨by rfl, by decide, by decide⟩

def c7Heap : List Op := [⟨"x", false, some 3, some ("dt")⟩,
  ⟨"delay", true, some 5, some ("dt")⟩]

def c7Dag : DAG := ⟨["q"], [], [bq0, bq1], [],
  [⟨0, [bq0], [], none⟩, ⟨1, [bq1], [], none⟩], "w", some 5, none⟩

/-- Witness for the amended C4: a gate wire survives unchanged, an all-delay
qubit wire is emptied, and non-qubit wires are untouched. -/
theorem remover_lane_behavior_witness :
    ∃ d', removeDelaysOnIdleQubits c7Heap c7Dag = .ok d' ∧
      (∀ q ∈ c7Dag.qubits,
        ((∀ n ∈ laneN c7Dag.nodes q, (opAt c7Heap n.opId).isDelay = true) →
          laneN d'.nodes q = []) ∧
        ((∃ g ∈ laneN c7Dag.nodes q, (opAt c7Heap g.opId).isDelay = false) →
          laneN d'.nodes q = laneN c7Dag.nodes q)) ∧
      (∀ b, b ∉ c7Dag.qubits → laneN d'.nodes b = laneN c7Dag.nodes b) :=
  remover_lane_behavior c7Heap c7Dag 5 (by rfl) (by decide)

/-- Claim C5, amended: whenever the pass removes at least one operation node,
it sets `total_duration` to the maximum over the QUANTUM wires of the sum of
the remaining durations on that wire (0 when no operation remains on any
quantum wire); classical wires do not participate in the recomputation. -/
theorem remover_duration_recompute (heap : List Op) (dag : DAG) (d' : DAG)
    (hok : removeDelaysOnIdleQubits heap dag = .ok d')
    (hch : d'.nodes ≠ dag.nodes) :
    d'.duration = some (listMax (d'.qubits.map (fun q => laneLoadD heap d'.nodes q))) := by
  cases hdur : dag.duration with
  | none =>
    unfold removeDelaysOnIdleQubits at hok
    rw [hdur] at hok
    exact absurd hok (by simp)
  | some t =>
    rw [removeDelays_eq_of_scheduled heap dag t hdur] at hok
    rcases remFold_shape heap dag.qubits dag false with ⟨ns, fl, hshape⟩
    by_cases hr : (remFold heap dag.qubits (dag, false)).2 = true
    · rw [if_pos hr] at hok
      simp only [Except.ok.injEq] at hok
      subst hok
      rw [recomputeDuration_eq]
    · exfalso
      rw [if_neg hr] at hok
      simp only [Except.ok.injEq] at hok
      have hfl : (remFold heap dag.qubits (dag, false)).2 = false := by
        cases hc : (remFold heap dag.qubits (dag, false)).2
        · rfl
        · exact absurd hc hr
      have := remFold_false_id heap dag.qubits dag hfl
      rw [hok] at this
      exact hch (by rw [this])

def c5Heap : List Op := [⟨"delay", true, some 3, some ("dt")⟩,
  ⟨"meas", false, some 5, some ("dt")⟩]

def c5Dag : DAG := ⟨["q"], ["c"], [bq0], [bc0],
  [⟨0, [bq0], [], none⟩, ⟨1, [], [bc0], none⟩], "r", some 7, none⟩

/-- Claim C5, counterexample: after removing the qubit wire's delay the pass
records duration 0 (maximum over qubit wires only), although the maximum over
ALL wires of the remaining duration sums is 5 — the classical wire's
measure-like operation is ignored by the recomputation. -/
theorem remover_duration_ignores_classical :
    removeDelaysOnIdleQubits c5Heap c5Dag = .ok (okRem (removeDelaysOnIdleQubits c5Heap c5Dag)) ∧
    (okRem (removeDelaysOnIdleQubits c5Heap c5Dag)).nodes ≠ c5Dag.nodes ∧
    (okRem (removeDelaysOnIdleQubits c5Heap c5Dag)).duration = some 0 ∧
    listMax (((okRem (removeDelaysOnIdleQubits c5Heap c5Dag)).qubits
        ++ (okRem (removeDelaysOnIdleQubits c5Heap c5Dag)).clbits).map
      (fun b => laneLoadD c5Heap (okRem (removeDelaysOnIdleQubits c5Heap c5Dag)).nodes b)) = 5 :=
  ⟨by rfl, by decide, by rfl, by rfl⟩

/-- Witness for the amended C5 on the same counterexample circuit: the
recorded duration equals the quantum-wire maximum (here 0). -/
theorem remover_duration_recompute_witness :
    (okRem (removeDelaysOnIdleQubits c5Heap c5Dag)).duration
      = some (listMax ((okRem (removeDelaysOnIdleQubits c5Heap c5Dag)).qubits.map
        (fun q => laneLoadD c5Heap (okRem (removeDelaysOnIdleQubits c5Heap c5Dag)).nodes q))) :=
  remover_duration_recompute c5Heap c5Dag
    (okRem (removeDelaysOnIdleQubits c5Heap c5Dag)) (by rfl) (by decide)

/-- Claim C7: the pass is idempotent — running it on its own output returns
that output unchanged (same node sequences on every wire, same duration). -/
theorem remover_idempotent (heap : List Op) (dag : DAG) (d' : DAG)
    (hok : removeDelaysOnIdleQubits heap dag = .ok d') :
    removeDelaysOnIdleQubits heap d' = .ok d' := by
  cases hdur : dag.duration with
  | none =>
    unfold removeDelaysOnIdleQubits at hok
    rw [hdur] at hok
    exact absurd hok (by simp)
  | some t =>
    rw [removeDelays_eq_of_scheduled heap dag t hdur] at hok
    by_cases hr : (remFold heap dag.qubits (dag, false)).2 = true
    · rw [if_pos hr] at hok
      simp only [Except.ok.injEq] at hok
      subst hok
      have hq : (remFold heap dag.qubits (dag, false)).1.qubits = dag.qubits := by
        rcases remFold_shape heap dag.qubits dag false with ⟨ns, fl, hshape⟩
        rw [hshape]
      have hpost := remFold_post heap dag.qubits dag false
      rw [removeDelays_eq_of_scheduled heap _
        (recomputeDuration heap (remFold heap dag.qubits (dag, false)).1) rfl]
      have hnoop := remFold_noop heap
        ({ (remFold heap dag.qubits (dag, false)).1 with
          duration := some (recomputeDuration heap (remFold heap dag.qubits (dag, false)).1) }).qubits
        ({ (remFold heap dag.qubits (dag, false)).1 with
          duration := some (recomputeDuration heap (remFold heap dag.qubits (dag, false)).1) })
        false
        (by
          intro q' hq'
          have hq'' : q' ∈ dag.qubits := by
            rw [← hq]
            exact hq'
          exact hpost q' hq'')
      rw [hnoop]
      cases hany : ({ (remFold heap dag.qubits (dag, false)).1 with
          duration := some (recomputeDuration heap (remFold heap dag.qubits (dag, false)).1) }).qubits.any
          (fun q' => (laneN ({ (remFold heap dag.qubits (dag, false)).1 with
            duration := some (recomputeDuration heap (remFold heap dag.qubits (dag, false)).1) }).nodes q').isEmpty) with
      | false => rfl
      | true => rfl
    · rw [if_neg hr] at hok
      simp only [Except.ok.injEq] at hok
      have hfl : (remFold heap dag.qubits (dag, false)).2 = false := by
        cases hc : (remFold heap dag.qubits (dag, false)).2
        · rfl
        · exact absurd hc hr
      have hid := remFold_false_id heap dag.qubits dag hfl
      have hdd : d' = dag := by rw [← hok, hid]
      subst hdd
      rw [removeDelays_eq_of_scheduled heap d' t hdur, if_neg hr, hid]

/-- Witness for C7: re-running the pass on the cleaned two-qubit circuit is a
no-op. -/
theorem remover_idempotent_witness :
    removeDelaysOnIdleQubits c7Heap (okRem (removeDelaysOnIdleQubits c7Heap c7Dag))
      = .ok (okRem (removeDelaysOnIdleQubits c7Heap c7Dag)) :=
  remover_idempotent c7Heap c7Dag (okRem (removeDelaysOnIdleQubits c7Heap c7Dag)) (by rfl)

/-- Claim C10: a scheduled graph containing an operation-free quantum wire
always takes the removal branch (an empty wire counts as idle), so the pass
recomputes `total_duration` as the maximum over the quantum wires of the
remaining duration sums — even when it removes no node. -/
theorem remover_empty_lane_recompute (heap : List Op) (dag : DAG) (t : Nat) (q : Bit)
    (hdur : dag.duration = some t) (hq : q ∈ dag.qubits)
    (hemp : laneN dag.nodes q = []) :
    ∃ d', removeDelaysOnIdleQubits heap dag = .ok d' ∧
      d'.duration = some (listMax (d'.qubits.map (fun b => laneLoadD heap d'.nodes b))) := by
  rw [removeDelays_eq_of_scheduled heap dag t hdur]
  have hflag : (remFold heap dag.qubits (dag, false)).2 = true :=
    remFold_flag_empty heap dag.qubits dag false q hq hemp
  rw [if_pos hflag]
  refine ⟨_, rfl, ?_⟩
  rw [recomputeDuration_eq]

def c10Heap : List Op := [⟨"x", false, some 5, some ("dt")⟩]

def c10Dag : DAG := ⟨["q"], [], [bq0, bq1], [], [⟨0, [bq0], [], none⟩], "z", some 99, none⟩

/-- Witness for C10: wire `bq1` is empty, no node is removed, and the duration
changes from 99 to the recomputed quantum-wire maximum 5. -/
theorem remover_empty_lane_recompute_witness :
    (okRem (removeDelaysOnIdleQubits c10Heap c10Dag)).nodes = c10Dag.nodes ∧
    c10Dag.duration = some 99 ∧
    (okRem (removeDelaysOnIdleQubits c10Heap c10Dag)).duration = some 5 ∧
    ∃ d', removeDelaysOnIdleQubits c10Heap c10Dag = .ok d' ∧
      d'.duration = some (listMax (d'.qubits.map (fun b => laneLoadD c10Heap d'.nodes b))) :=
  ⟨by decide, by rfl, by rfl,
    remover_empty_lane_recompute c10Heap c10Dag 99 bq1 (by rfl) (by decide) (by decide)⟩

end QiskitSched
